import Mathlib

/-!
Verification of the zebu AST arena library (src/zebu.c, src/src/tree.h).

The development shallowly embeds the C code:

* C strings are modelled as their byte lists (`CStr`, the bytes before the
  terminating nul), and `strcmp` is translated literally, so the lexical
  order used by the dictionary is exactly the byte order of the source;
* the AA-tree string dictionary (`struct zz_dict`, `zz_dict_skew`,
  `zz_dict_split`, `zz_dict_insert`, `zz_alloc_string`) becomes an inductive
  `Dict` carrying, per node, its level, the arena address of its data buffer
  (pointer identity is modelled by a fresh-address counter threaded through
  allocation), and the stored string;
* the size-classed blob allocator (`zz_alloc_in_blobs`, `zz_alloc`) becomes
  a state machine over chains of blobs with explicit byte contents;
* AST nodes (`zz_null` .. `zz_pointer`, `zz_copy`, `zz_copy_recursive`)
  become rose trees tagged with their arena address; a `char` pointer into
  the arena is modelled as the pair of its address and the bytes it points
  at;
* `zz_error` becomes a function from a modelled file system to the text
  written to the error stream.
-/

namespace Zebu

/-- A C string: the bytes before the terminating nul. -/
abbrev CStr := List Nat

/-- `strcmp` on byte lists: the comparison the dictionary descends by. -/
def strcmp : CStr → CStr → Ordering
  | [], [] => .eq
  | [], _ :: _ => .lt
  | _ :: _, [] => .gt
  | a :: as, b :: bs =>
    if a < b then .lt else if b < a then .gt else strcmp as bs

/-- Strict `strcmp` order on C strings. -/
def sLt (x y : CStr) : Prop := strcmp x y = Ordering.lt

instance (x y : CStr) : Decidable (sLt x y) := by
  unfold sLt; infer_instance

/-- The string dictionary node, from `struct zz_dict` in src/zebu.c:
left and right children, the AA-tree `level`, and the trailing string
buffer.  `addr` is the arena address of the `data` buffer, i.e. the
reference that interning hands out; it is assigned at allocation time and
never changes afterwards. -/
inductive Dict where
  | nil : Dict
  | node (left : Dict) (right : Dict) (level : Nat) (addr : Nat) (data : CStr) : Dict
deriving DecidableEq, Repr

/-- Level of a dictionary subtree; a missing child (`NULL`) has level 0. -/
def Dict.lvl : Dict → Nat
  | .nil => 0
  | .node _ _ k _ _ => k

/-- Level of the right child of a dictionary subtree. -/
def Dict.rlvl : Dict → Nat
  | .nil => 0
  | .node _ r _ _ _ => r.lvl

/-- `zz_dict_skew` from src/zebu.c: when the left child exists and shares
the node level, rotate right. -/
def zz_dict_skew : Dict → Dict
  | .nil => .nil
  | .node l r k a d =>
    match l with
    | .nil => .node l r k a d
    | .node ll lr lk la ld =>
      if lk = k then .node ll (.node lr r k a d) lk la ld
      else .node l r k a d

/-- `zz_dict_split` from src/zebu.c: when the right grandchild exists and
shares the node level, rotate left and promote the new root's level. -/
def zz_dict_split : Dict → Dict
  | .nil => .nil
  | .node l r k a d =>
    match r with
    | .nil => .node l r k a d
    | .node rl rr rk ra rd =>
      match rr with
      | .nil => .node l (.node rl rr rk ra rd) k a d
      | .node rrl rrr rrk rra rrd =>
        if k = rrk then
          .node (.node l rl k a d) (.node rrl rrr rrk rra rrd) (rk + 1) ra rd
        else .node l (.node rl (.node rrl rrr rrk rra rrd) rk ra rd) k a d

/-- `zz_dict_insert` from src/zebu.c.  `cnt` is the fresh-address supply of
the arena: a new node's data buffer gets address `cnt` and the supply
advances.  Returns the new subtree, the advanced supply, and `rval`: the
address of the buffer now holding the string (freshly stored or found).
On an exact match nothing is allocated; skew then split are applied at
every node on the descent path, but not to a freshly created node. -/
def zz_dict_insert (cnt : Nat) : Dict → CStr → Dict × Nat × Nat
  | .nil, s => (.node .nil .nil 1 cnt s, cnt + 1, cnt)
  | .node l r k a d, s =>
    match strcmp s d with
    | .lt =>
      let res := zz_dict_insert cnt l s
      (zz_dict_split (zz_dict_skew (.node res.1 r k a d)), res.2)
    | .gt =>
      let res := zz_dict_insert cnt r s
      (zz_dict_split (zz_dict_skew (.node l res.1 k a d)), res.2)
    | .eq =>
      (zz_dict_split (zz_dict_skew (.node l r k a d)), cnt, a)

/-- In-order list of (string, address) pairs of a dictionary. -/
def Dict.entries : Dict → List (CStr × Nat)
  | .nil => []
  | .node l r _ a d => l.entries ++ (d, a) :: r.entries

/-- In-order list of the strings stored in a dictionary. -/
def Dict.keys (t : Dict) : List CStr := t.entries.map Prod.fst

/-- Number of nodes of a dictionary. -/
def Dict.size : Dict → Nat
  | .nil => 0
  | .node l r _ _ _ => l.size + r.size + 1

/-- In-order strictly-ascending key order: the binary-search-tree invariant
of the dictionary, stated on the in-order key list. -/
def Dict.Sorted (t : Dict) : Prop := t.keys.Pairwise sLt

instance (t : Dict) : Decidable t.Sorted := by
  unfold Dict.Sorted; infer_instance

/-- Ordered association-list insertion mirroring what `zz_dict_insert` does
to the in-order entry list: descend to the first key not below `s`; insert
there unless the key is already present, in which case nothing changes. -/
def einsert (s : CStr) (a : Nat) : List (CStr × Nat) → List (CStr × Nat)
  | [] => [(s, a)]
  | (d, b) :: rest =>
    match strcmp s d with
    | .lt => (s, a) :: (d, b) :: rest
    | .gt => (d, b) :: einsert s a rest
    | .eq => (d, b) :: rest

/-- Arena state of a tree as far as node identity and interned strings are
concerned: the fresh-address supply and the string dictionary
(`tree->strings`). -/
structure ZZTreeSt where
  counter : Nat
  strings : Dict
deriving DecidableEq, Repr

/-- `zz_tree_init` from src/zebu.c: empty dictionary (the allocator state
is modelled separately). -/
def zz_tree_init : ZZTreeSt := ⟨0, .nil⟩

/-- `zz_alloc_string` from src/zebu.c: intern a string in the tree's
dictionary and return the arena reference of its storage. -/
def zz_alloc_string (t : ZZTreeSt) (s : CStr) : ZZTreeSt × Nat :=
  let res := zz_dict_insert t.counter t.strings s
  (⟨res.2.1, res.1⟩, res.2.2)

/-- Intern a whole list of strings in order, starting from a given state. -/
def internAll (t : ZZTreeSt) (ss : List CStr) : ZZTreeSt :=
  ss.foldl (fun a s => (zz_alloc_string a s).1) t

/-- All data-buffer addresses of a dictionary lie below the arena's
fresh-address supply. -/
def Dict.Bounded (t : Dict) (c : Nat) : Prop := ∀ p ∈ t.entries, p.2 < c

/-- No two dictionary nodes share a data-buffer address. -/
def Dict.AddrNodup (t : Dict) : Prop := (t.entries.map Prod.snd).Nodup

/-- Well-formedness of a tree's interning state: reachable from
`zz_tree_init` by interning. -/
def ZZTreeSt.WF (t : ZZTreeSt) : Prop :=
  t.strings.Sorted ∧ t.strings.Bounded t.counter ∧ t.strings.AddrNodup

/-- Full AA-tree invariant (with `NULL` at level 0): every node sits one
level above its left child, and either one level above its right child,
or at the level of its right child with the right grandchild one level
below. -/
def Dict.AA : Dict → Prop
  | .nil => True
  | .node l r k _ _ =>
      l.AA ∧ r.AA ∧ k = l.lvl + 1 ∧
        (k = r.lvl + 1 ∨ (k = r.lvl ∧ k = r.rlvl + 1))

/-- A subtree is single when its right child sits strictly below it. -/
def Dict.Single : Dict → Prop
  | .nil => False
  | .node _ r k _ _ => r.lvl < k

/-- The balance property claimed of the dictionary: at no node does the
left child share the node's level, and at no node does the right
grandchild's level exceed the node's level. -/
def Dict.ClaimInv : Dict → Prop
  | .nil => True
  | .node l r k _ _ =>
      l.ClaimInv ∧ r.ClaimInv ∧
      (match l with
       | .nil => True
       | .node _ _ lk _ _ => lk ≠ k) ∧
      (match r with
       | .nil => True
       | .node _ rr _ _ _ =>
         match rr with
         | .nil => True
         | .node _ _ rrk _ _ => rrk ≤ k)

/-! ### Blob allocator (src/zebu.c lines 47-91)

`ZZ_BLOB_SIZE` is defined in the missing header zebu.h; the model is
parametric in it (written `BS` below), and the theorems assume it is at
least the largest size class, which the code needs anyway to stay within a
blob's capacity. -/

/-- One memory blob: `struct zz_blob` plus its byte payload.  `id` is the
identity of the blob (its address, drawn from a fresh counter), `cap` the
byte capacity following the header, `used` the bump offset, and `data` the
`cap` payload bytes.  `calloc` makes all bytes zero at creation. -/
structure Blob where
  id : Nat
  cap : Nat
  used : Nat
  data : List Nat
deriving DecidableEq, Repr

/-- Allocator state of one tree: `tree->blobs`, the nine chains (eight size
classes and the overflow chain), newest blob first, plus the fresh blob
identity supply. -/
structure AllocSt where
  counter : Nat
  chains : List (List Blob)
deriving DecidableEq, Repr

/-- `zz_tree_init` allocator part: `calloc(9, sizeof(struct zz_blob *))`,
nine empty chains. -/
def allocInit : AllocSt := ⟨0, List.replicate 9 []⟩

/-- A pointer returned by the allocator: the identity of the blob it points
into and the byte offset past the blob header. -/
abbrev Ptr := Nat × Nat

/-- `zz_alloc_in_blobs` from src/zebu.c.  The C receives a pointer to one
chain slot; the model receives that chain (and the fresh blob-identity
supply `cnt`) and returns the updated chain, the updated supply, and the
returned pointer.  If the chain has no blob or the front blob cannot take
`nbytes` more bytes, a fresh zeroed blob of capacity `BS` is pushed; then
the front blob's current offset is handed out and advanced. -/
def zz_alloc_in_blobs (BS cnt : Nat) (chain : List Blob) (nbytes : Nat) :
    List Blob × Nat × Ptr :=
  let push : Bool :=
    match chain.head? with
    | none => true
    | some b => decide (b.used + nbytes > BS)
  let chain1 : List Blob :=
    if push then ⟨cnt, BS, 0, List.replicate BS 0⟩ :: chain else chain
  let cnt1 : Nat := if push then cnt + 1 else cnt
  match chain1 with
  | [] => ([], cnt1, (0, 0))
  | b :: rest => ({ b with used := b.used + nbytes } :: rest, cnt1, (b.id, b.used))

/-- Store the result of `zz_alloc_in_blobs` on chain `i` back into the
state (the C passed `&blobs[i]` by reference). -/
def allocAt (BS : Nat) (s : AllocSt) (i c : Nat) : AllocSt × Ptr :=
  let r := zz_alloc_in_blobs BS s.counter (s.chains.getD i []) c
  (⟨r.2.1, s.chains.set i r.1⟩, r.2.2)

/-- `zz_alloc` from src/zebu.c: route a request of `nbytes` bytes to the
smallest size class that fits, or, above 1024 bytes, allocate a dedicated
blob of exactly `nbytes` bytes, already fully used, and push it onto the
overflow chain (index 8). -/
def zz_alloc (BS : Nat) (s : AllocSt) (nbytes : Nat) : AllocSt × Ptr :=
  if nbytes ≤ 8 then allocAt BS s 0 8
  else if nbytes ≤ 16 then allocAt BS s 1 16
  else if nbytes ≤ 32 then allocAt BS s 2 32
  else if nbytes ≤ 64 then allocAt BS s 3 64
  else if nbytes ≤ 128 then allocAt BS s 4 128
  else if nbytes ≤ 256 then allocAt BS s 5 256
  else if nbytes ≤ 512 then allocAt BS s 6 512
  else if nbytes ≤ 1024 then allocAt BS s 7 1024
  else
    (⟨s.counter + 1,
      s.chains.set 8 ((⟨s.counter, nbytes, nbytes, List.replicate nbytes 0⟩ : Blob) ::
        s.chains.getD 8 [])⟩,
     (s.counter, 0))

/-- The eight fixed size classes of the allocator. -/
def sizeClasses : List Nat := [8, 16, 32, 64, 128, 256, 512, 1024]

/-- The smallest documented size class that fits a request, if any: the
spec's description of class selection. -/
def minClass (nbytes : Nat) : Option Nat :=
  List.find? (fun c => nbytes ≤ c) sizeClasses

/-- The chain index zz_alloc serves a small request from. -/
def classIdx (nbytes : Nat) : Nat :=
  if nbytes ≤ 8 then 0
  else if nbytes ≤ 16 then 1
  else if nbytes ≤ 32 then 2
  else if nbytes ≤ 64 then 3
  else if nbytes ≤ 128 then 4
  else if nbytes ≤ 256 then 5
  else if nbytes ≤ 512 then 6
  else 7

/-- A client interaction with the allocator: an allocation request, or a
store of byte `v` at offset `off` of the blob with identity `bid`.  Stores
model what the rest of the program does with memory it was handed; a store
is honoured only inside the already handed-out prefix of a blob, which is
where every pointer the allocator ever returned points. -/
inductive AOp where
  | alloc (nbytes : Nat)
  | store (bid off v : Nat)
deriving DecidableEq, Repr

/-- Set one payload byte of every blob with identity `bid`, provided the
offset lies in the handed-out prefix. -/
def storeByte (s : AllocSt) (bid off v : Nat) : AllocSt :=
  ⟨s.counter,
   s.chains.map (fun ch => ch.map (fun b =>
     if b.id = bid ∧ off < b.used then { b with data := b.data.set off v } else b))⟩

/-- Run a list of client interactions from a state. -/
def runOps (BS : Nat) (s : AllocSt) : List AOp → AllocSt
  | [] => s
  | .alloc n :: ops => runOps BS (zz_alloc BS s n).1 ops
  | .store bid off v :: ops => runOps BS (storeByte s bid off v) ops

/-- All blobs of a state, over all chains. -/
def AllocSt.blobs (s : AllocSt) : List Blob := s.chains.flatten

/-- The (identity, capacity, used) triples of the overflow chain, newest
first: the allocation record of every dedicated overflow blob. -/
def overflowShape (s : AllocSt) : List (Nat × Nat × Nat) :=
  (s.chains.getD 8 []).map (fun b => (b.id, b.cap, b.used))

/-- Zeroing invariant of one blob: the payload has exactly `cap` bytes,
the bump offset stays within capacity, and every byte at or past the bump
offset still has its `calloc` value zero — those bytes were never handed
out, and handed-out bytes are never handed out again because the offset
only grows. -/
def blobZeroInv (b : Blob) : Prop :=
  b.data.length = b.cap ∧ b.used ≤ b.cap ∧
    ∀ j, b.used ≤ j → j < b.cap → b.data.getD j 1 = 0

/-- Allocator well-formedness, preserved from `allocInit` by every client
interaction: nine chains, every blob satisfies the zeroing invariant, and
every blob of a fixed size class has capacity `ZZ_BLOB_SIZE`. -/
def AllocWF (BS : Nat) (s : AllocSt) : Prop :=
  s.chains.length = 9 ∧
  (∀ b ∈ s.blobs, blobZeroInv b) ∧
  (∀ i, i < 8 → ∀ b ∈ s.chains.getD i [], b.cap = BS)

/-! ### AST nodes (src/zebu.c lines 157-320)

`struct zz_node` lives in the missing header node.h; its fields are taken
from their uses in src/zebu.c and from the spec's data model: a `token`
label, a `type` tag, the `data` union, a reference count, and intrusive
child/sibling links.  Nodes are embedded as rose trees: the intrusive
`children` anchor becomes an ordered list of child subtrees, and a node's
arena address `id` models its identity.  The union is a record of all
members; only the member selected by the tag is meaningful. -/

/-- The six documented node kinds (`enum` in the missing node.h); the tag
itself is a machine integer, so it can also hold other values. -/
def ZZ_NULL : Nat := 0
def ZZ_INT : Nat := 1
def ZZ_UINT : Nat := 2
def ZZ_DOUBLE : Nat := 3
def ZZ_STRING : Nat := 4
def ZZ_POINTER : Nat := 5

/-- The `data` union of a node.  `int_val` is a C int, `uint_val` an
unsigned int, `double_val` an (uninterpreted) 64-bit pattern, `str_val` a
pointer to interned characters (address plus the bytes it points at), and
`ptr_val` an opaque address.  `calloc` zeroes a fresh node, giving the
default values. -/
structure ZZData where
  int_val : Int := 0
  uint_val : Nat := 0
  double_val : Nat := 0
  str_val : Nat × CStr := (0, [])
  ptr_val : Nat := 0
deriving DecidableEq, Repr

/-- An AST node with its subtree: arena address, token, type tag, data
union and ordered child list. -/
inductive ZNode where
  | mk (id : Nat) (token : CStr) (ty : Nat) (data : ZZData) (children : List ZNode)

def ZNode.id : ZNode → Nat
  | .mk i _ _ _ _ => i

def ZNode.token : ZNode → CStr
  | .mk _ tk _ _ _ => tk

def ZNode.ty : ZNode → Nat
  | .mk _ _ ty _ _ => ty

def ZNode.data : ZNode → ZZData
  | .mk _ _ _ d _ => d

def ZNode.children : ZNode → List ZNode
  | .mk _ _ _ _ cs => cs

/-- `zz_alloc_node` from src/zebu.c: grab a fresh zeroed node from the
arena and make its sibling and children links empty. -/
def zz_alloc_node (t : ZZTreeSt) : ZZTreeSt × Nat :=
  (⟨t.counter + 1, t.strings⟩, t.counter)

/-- `zz_null` from src/zebu.c. -/
def zz_null (t : ZZTreeSt) (token : CStr) : ZZTreeSt × ZNode :=
  let r := zz_alloc_node t
  (r.1, .mk r.2 token ZZ_NULL {} [])

/-- `zz_int` from src/zebu.c (`zz_int_init` inlined). -/
def zz_int (t : ZZTreeSt) (token : CStr) (v : Int) : ZZTreeSt × ZNode :=
  let r := zz_alloc_node t
  (r.1, .mk r.2 token ZZ_INT { int_val := v } [])

/-- `zz_uint` from src/zebu.c (`zz_uint_init` inlined). -/
def zz_uint (t : ZZTreeSt) (token : CStr) (v : Nat) : ZZTreeSt × ZNode :=
  let r := zz_alloc_node t
  (r.1, .mk r.2 token ZZ_UINT { uint_val := v } [])

/-- `zz_double` from src/zebu.c (`zz_double_init` inlined). -/
def zz_double (t : ZZTreeSt) (token : CStr) (v : Nat) : ZZTreeSt × ZNode :=
  let r := zz_alloc_node t
  (r.1, .mk r.2 token ZZ_DOUBLE { double_val := v } [])

/-- `zz_string` from src/zebu.c (`zz_string_init` inlined): the payload
characters are interned through `zz_alloc_string` and the node stores the
returned arena reference. -/
def zz_string (t : ZZTreeSt) (token : CStr) (v : CStr) : ZZTreeSt × ZNode :=
  let r := zz_alloc_node t
  let i := zz_alloc_string r.1 v
  (i.1, .mk r.2 token ZZ_STRING { str_val := (i.2, v) } [])

/-- `zz_pointer` from src/zebu.c (`zz_pointer_init` inlined). -/
def zz_pointer (t : ZZTreeSt) (token : CStr) (v : Nat) : ZZTreeSt × ZNode :=
  let r := zz_alloc_node t
  (r.1, .mk r.2 token ZZ_POINTER { ptr_val := v } [])

/-- `zz_copy` from src/zebu.c: dispatch on the type tag to the constructor
of the same kind, handing it the stored token and payload; the `switch`
falls through to `NULL` on any other tag value.  For the string kind the C
passes the stored `char` pointer, whose pointed-at bytes the constructor
re-interns. -/
def zz_copy (t : ZZTreeSt) (n : ZNode) : ZZTreeSt × Option ZNode :=
  if n.ty = ZZ_NULL then
    let r := zz_null t n.token
    (r.1, some r.2)
  else if n.ty = ZZ_INT then
    let r := zz_int t n.token n.data.int_val
    (r.1, some r.2)
  else if n.ty = ZZ_UINT then
    let r := zz_uint t n.token n.data.uint_val
    (r.1, some r.2)
  else if n.ty = ZZ_DOUBLE then
    let r := zz_double t n.token n.data.double_val
    (r.1, some r.2)
  else if n.ty = ZZ_STRING then
    let r := zz_string t n.token n.data.str_val.2
    (r.1, some r.2)
  else if n.ty = ZZ_POINTER then
    let r := zz_pointer t n.token n.data.ptr_val
    (r.1, some r.2)
  else (t, none)

mutual
/-- `zz_copy_recursive` from src/zebu.c: shallow-copy the node, then copy
each child in order and append it to the copy's child list.
`zz_append_child` is an intrusive-list primitive from the missing header;
appending an absent node is outside its contract (the C would crash), so
the model appends only present copies. -/
def zz_copy_recursive : ZZTreeSt → ZNode → ZZTreeSt × Option ZNode
  | t, .mk i tk ty d cs =>
    match zz_copy t (.mk i tk ty d cs) with
    | (t1, none) => (t1, none)
    | (t1, some ret) =>
      let rc := copyChildren t1 cs
      (rc.1, some (.mk ret.id ret.token ret.ty ret.data (ret.children ++ rc.2)))

/-- Copy a list of children in order, keeping the successful copies. -/
def copyChildren (t : ZZTreeSt) : List ZNode → ZZTreeSt × List ZNode
  | [] => (t, [])
  | c :: cs =>
    match zz_copy_recursive t c with
    | (t1, none) => copyChildren t1 cs
    | (t1, some c1) =>
      let rest := copyChildren t1 cs
      (rest.1, c1 :: rest.2)
end

mutual
/-- All arena addresses occurring in a subtree. -/
def ZNode.ids : ZNode → List Nat
  | .mk i _ _ _ cs => i :: idsList cs

def idsList : List ZNode → List Nat
  | [] => []
  | c :: cs => c.ids ++ idsList cs
end

mutual
/-- Every node of the subtree carries one of the six documented kinds. -/
def goodKinds : ZNode → Bool
  | .mk _ _ ty _ cs => decide (ty ≤ 5) && goodKindsList cs

def goodKindsList : List ZNode → Bool
  | [] => true
  | c :: cs => goodKinds c && goodKindsList cs
end

mutual
/-- Every string-kind node of the subtree holds a live interned reference:
the dictionary entry list `E` stores its pointed-at bytes exactly at its
address. -/
def strRefsOk (E : List (CStr × Nat)) : ZNode → Bool
  | .mk _ _ ty d cs =>
    (if ty = ZZ_STRING then decide ((d.str_val.2, d.str_val.1) ∈ E) else true)
      && strRefsOkList E cs

def strRefsOkList (E : List (CStr × Nat)) : List ZNode → Bool
  | [] => true
  | c :: cs => strRefsOk E c && strRefsOkList E cs
end

/-- The payload selected by a node's type tag, for the six documented
kinds. -/
inductive Payload where
  | pnull
  | pint (v : Int)
  | puint (v : Nat)
  | pdouble (v : Nat)
  | pstr (v : Nat × CStr)
  | pptr (v : Nat)
deriving DecidableEq, Repr

/-- Read the payload a node's tag selects; `none` on an undocumented tag. -/
def payloadOf (n : ZNode) : Option Payload :=
  if n.ty = ZZ_NULL then some .pnull
  else if n.ty = ZZ_INT then some (.pint n.data.int_val)
  else if n.ty = ZZ_UINT then some (.puint n.data.uint_val)
  else if n.ty = ZZ_DOUBLE then some (.pdouble n.data.double_val)
  else if n.ty = ZZ_STRING then some (.pstr n.data.str_val)
  else if n.ty = ZZ_POINTER then some (.pptr n.data.ptr_val)
  else none

mutual
/-- Structural isomorphism of two subtrees: same token, tag and selected
payload at every corresponding node, and the same child list shape in the
same order.  Arena addresses are not compared. -/
def isoB : ZNode → ZNode → Bool
  | .mk _ tk ty d cs, .mk _ tk2 ty2 d2 cs2 =>
    decide (tk = tk2) && decide (ty = ty2) &&
    decide (payloadOf (.mk 0 tk ty d []) = payloadOf (.mk 0 tk2 ty2 d2 [])) &&
    isoListB cs cs2

def isoListB : List ZNode → List ZNode → Bool
  | [], [] => true
  | c :: cs, c2 :: cs2 => isoB c c2 && isoListB cs cs2
  | _, _ => false
end

/-! ### Reference-counted detachment (src/src/tree.h line 49)

Modelled from the spec: the implementation of `zz_unref` is declared in
src/src/tree.h but its body is not under src/.  Following the spec,
`unref` decrements the node's reference count; while the count remains
positive it returns the node unchanged; on reaching zero it detaches the
node from its parent's child list, recursively unrefs each of the node's
children, and returns an absent sentinel; unref of an already-absent node
(count already zero) is a no-op, with no double-detach and no count
underflow.  Nodes live in a heap indexed by arena address so that
detachment from the parent is observable; `fuel` bounds the cascade depth
(any fuel at least the number of heap nodes is enough). -/

/-- One heap cell of the reference-count model: the node's reference
count, its parent's address if attached, and its child list. -/
structure HNode where
  refcount : Nat
  parent : Option Nat
  children : List Nat
deriving DecidableEq, Repr

/-- The node heap: cell `i` of the list is the node at address `i`. -/
structure Heap where
  nodes : List HNode
deriving DecidableEq, Repr

/-- Look up the node at an address. -/
def Heap.get (h : Heap) (i : Nat) : Option HNode := h.nodes.get? i

/-- Replace the node at an address. -/
def Heap.setNode (h : Heap) (i : Nat) (nd : HNode) : Heap := ⟨h.nodes.set i nd⟩

/-- Modelled from the spec: detach a node from its parent's child list, if
attached, and clear its parent link. -/
def detach (h : Heap) (i : Nat) : Heap :=
  match h.get i with
  | none => h
  | some nd =>
    match nd.parent with
    | none => h
    | some p =>
      match h.get p with
      | none => h.setNode i { nd with parent := none }
      | some pn =>
        (h.setNode p { pn with children := pn.children.erase i }).setNode i
          { nd with parent := none }

/-- Modelled from the spec: `zz_unref` (declared in src/src/tree.h).
Decrement the reference count; positive remainder returns the node
unchanged, zero detaches it and cascades to its children and returns the
absent sentinel, and a node whose count is already zero is left alone. -/
def zz_unref (fuel : Nat) (h : Heap) (i : Nat) : Heap × Option Nat :=
  match fuel with
  | 0 => (h, none)
  | fuel + 1 =>
    match h.get i with
    | none => (h, none)
    | some nd =>
      if nd.refcount = 0 then (h, none)
      else if nd.refcount = 1 then
        let h1 := detach (h.setNode i { nd with refcount := 0 }) i
        (nd.children.foldl (fun a c => (zz_unref fuel a c).1) h1, none)
      else
        (h.setNode i { nd with refcount := nd.refcount - 1 }, some i)

/-- One heap cell evolves monotonically under `zz_unref`: its count never
grows and its child list only loses members. -/
def Weaker (nd2 nd : HNode) : Prop :=
  nd2.refcount ≤ nd.refcount ∧ nd2.children.Sublist nd.children

/-! ### Error reporter (src/zebu.c lines 347-382)

The file system is modelled as a map from path to file bytes (as
characters), `none` when `fopen` fails.  The output is the character list
written to the error stream.  The C skips lines with `while (fgetc(f) !=
EOLN)`, which does not terminate if the line does not exist; the model
stops at end of file, which is only relied on for inputs where the C
terminates too.  The claims below touch only the two paths that never read
the file. -/

/-- Decimal rendering of the `%d` of the report line. -/
def natChars (n : Nat) : List Char := (toString n).toList

/-- Drop everything up to and including the first newline. -/
def dropLine (cs : List Char) : List Char :=
  match cs with
  | [] => []
  | c :: rest => if c = '\n' then rest else dropLine rest

/-- Drop `k` whole lines. -/
def dropLines (k : Nat) (cs : List Char) : List Char :=
  match k with
  | 0 => cs
  | k + 1 => dropLines k (dropLine cs)

/-- The characters of the current line, up to the newline. -/
def takeLine (cs : List Char) : List Char :=
  match cs with
  | [] => []
  | c :: rest => if c = '\n' then [] else c :: takeLine rest

/-- The caret underline of `zz_error`: spaces (tabs under tabs) before the
first column, then carets (tabs under tabs) through the last column. -/
def caretLine (line : List Char) (firstCol lastCol : Nat) : List Char :=
  (List.range (lastCol)).filterMap (fun j =>
    if j + 1 < firstCol then some (if line.getD j ' ' = '\t' then '\t' else ' ')
    else if j + 1 ≤ lastCol then some (if line.getD j ' ' = '\t' then '\t' else '^')
    else none)

/-- `zz_error` from src/zebu.c: the characters written to the error
stream.  With no file path, one line `file:line: msg` with the `<file>`
placeholder.  With a path whose file cannot be opened, exactly the
`file:line: msg` text and nothing else (the early return skips even the
newline).  Otherwise the header, a newline, the offending source line, and
the caret underline; a span over several lines is truncated at the end of
the first line. -/
def zz_error (fs : String → Option (List Char)) (msg : String) (file : Option String)
    (first_line first_column last_line last_column : Nat) : List Char :=
  match file with
  | none => ("<file>:".toList ++ natChars first_line ++ ": ".toList ++ msg.toList ++ ['\n'])
  | some f =>
    let head := f.toList ++ [':'] ++ natChars first_line ++ ": ".toList ++ msg.toList
    match fs f with
    | none => head
    | some content =>
      let rest := dropLines (first_line - 1) content
      let line := takeLine rest
      let lastCol := if last_line > first_line then line.length - 1 else last_column
      head ++ ['\n'] ++ line ++ ['\n'] ++ caretLine line first_column lastCol ++ ['\n']

/-! ## Order facts about strcmp -/

theorem strcmp_self (x : CStr) : strcmp x x = .eq := by
  induction x with
  | nil => rfl
  | cons a as ih => simp [strcmp, ih]

theorem strcmp_eq_iff {x y : CStr} : strcmp x y = .eq ↔ x = y := by
  constructor
  · intro h
    induction x generalizing y with
    | nil => cases y with
      | nil => rfl
      | cons b bs => simp [strcmp] at h
    | cons a as ih =>
      cases y with
      | nil => simp [strcmp] at h
      | cons b bs =>
        simp only [strcmp] at h
        split_ifs at h
        have hab : a = b := by omega
        subst hab
        rw [ih h]
  · rintro rfl; exact strcmp_self x

theorem strcmp_gt_iff {x y : CStr} : strcmp x y = .gt ↔ sLt y x := by
  unfold sLt
  induction x generalizing y with
  | nil => cases y <;> simp [strcmp]
  | cons a as ih =>
    cases y with
    | nil => simp [strcmp]
    | cons b bs =>
      simp only [strcmp]
      split_ifs with h1 h2 <;> simp_all <;> omega

theorem sLt_trans {x y z : CStr} (h1 : sLt x y) (h2 : sLt y z) : sLt x z := by
  unfold sLt at *
  induction x generalizing y z with
  | nil =>
    cases z with
    | nil =>
      cases y with
      | nil => exact h2
      | cons b bs => simp [strcmp] at h2
    | cons c cs => simp [strcmp]
  | cons a as ih =>
    cases y with
    | nil => simp [strcmp] at h1
    | cons b bs =>
      cases z with
      | nil => simp [strcmp] at h2
      | cons c cs =>
        simp only [strcmp] at h1 h2 ⊢
        by_cases hab : a < b
        · by_cases hbc : b < c
          · rw [if_pos (by omega)]
          · by_cases hcb : c < b
            · rw [if_neg hbc, if_pos hcb] at h2
              cases h2
            · rw [if_pos (by omega)]
        · by_cases hba : b < a
          · rw [if_neg hab, if_pos hba] at h1
            cases h1
          · rw [if_neg hab, if_neg hba] at h1
            by_cases hbc : b < c
            · rw [if_pos (by omega)]
            · by_cases hcb : c < b
              · rw [if_neg hbc, if_pos hcb] at h2
                cases h2
              · rw [if_neg hbc, if_neg hcb] at h2
                rw [if_neg (by omega), if_neg (by omega)]
                exact ih h1 h2

theorem sLt_irrefl (x : CStr) : ¬ sLt x x := by
  unfold sLt
  rw [strcmp_self]
  simp

theorem sLt_asymm {x y : CStr} (h : sLt x y) : ¬ sLt y x := by
  intro h2
  exact sLt_irrefl x (sLt_trans h h2)

theorem sLt_ne {x y : CStr} (h : sLt x y) : x ≠ y := by
  rintro rfl
  exact sLt_irrefl x h

/-! ## The rotations preserve the in-order entry list -/

theorem entries_skew (t : Dict) : (zz_dict_skew t).entries = t.entries := by
  cases t with
  | nil => rfl
  | node l r k a d =>
    cases l with
    | nil => rfl
    | node ll lr lk la ld =>
      simp only [zz_dict_skew]
      split_ifs with h
      · simp [Dict.entries, List.append_assoc]
      · rfl

theorem entries_split (t : Dict) : (zz_dict_split t).entries = t.entries := by
  cases t with
  | nil => rfl
  | node l r k a d =>
    cases r with
    | nil => rfl
    | node rl rr rk ra rd =>
      cases rr with
      | nil => rfl
      | node rrl rrr rrk rra rrd =>
        simp only [zz_dict_split]
        split_ifs with h
        · simp [Dict.entries, List.append_assoc]
        · rfl

theorem keys_skew (t : Dict) : (zz_dict_skew t).keys = t.keys := by
  simp [Dict.keys, entries_skew]

theorem keys_split (t : Dict) : (zz_dict_split t).keys = t.keys := by
  simp [Dict.keys, entries_split]

/-! ## How insertion edits the in-order entry list -/

theorem einsert_append_lt {s d : CStr} (h : strcmp s d = .lt) (a b : Nat)
    (A B : List (CStr × Nat)) :
    einsert s a (A ++ (d, b) :: B) = einsert s a A ++ (d, b) :: B := by
  induction A with
  | nil => simp [einsert, h]
  | cons p A ih =>
    obtain ⟨x, c⟩ := p
    simp only [List.cons_append, einsert]
    cases hx : strcmp s x <;> simp [ih]

theorem einsert_append_gt {s d : CStr} (h : strcmp s d = .gt) (a b : Nat)
    {A : List (CStr × Nat)} (hA : ∀ p ∈ A, strcmp s p.1 = .gt) (B : List (CStr × Nat)) :
    einsert s a (A ++ (d, b) :: B) = A ++ (d, b) :: einsert s a B := by
  induction A with
  | nil => simp [einsert, h]
  | cons p A ih =>
    obtain ⟨x, c⟩ := p
    have hx : strcmp s x = .gt := hA (x, c) (by simp)
    simp only [List.cons_append, einsert, hx, List.append_eq]
    rw [ih (fun p hp => hA p (by simp [hp]))]

theorem einsert_append_eq {s : CStr} (a b : Nat)
    {A : List (CStr × Nat)} (hA : ∀ p ∈ A, strcmp s p.1 = .gt) (B : List (CStr × Nat)) :
    einsert s a (A ++ (s, b) :: B) = A ++ (s, b) :: B := by
  induction A with
  | nil => simp [einsert, strcmp_self]
  | cons p A ih =>
    obtain ⟨x, c⟩ := p
    have hx : strcmp s x = .gt := hA (x, c) (by simp)
    simp only [List.cons_append, einsert, hx, List.append_eq]
    rw [ih (fun p hp => hA p (by simp [hp]))]

theorem sorted_node {l r : Dict} {k a : Nat} {d : CStr}
    (h : (Dict.node l r k a d).Sorted) :
    l.Sorted ∧ r.Sorted ∧ (∀ p ∈ l.entries, sLt p.1 d) ∧ (∀ p ∈ r.entries, sLt d p.1) := by
  unfold Dict.Sorted Dict.keys at h ⊢
  simp only [Dict.entries, List.map_append, List.map_cons, List.pairwise_append,
    List.pairwise_cons] at h
  obtain ⟨h1, ⟨h2, h3⟩, h4⟩ := h
  refine ⟨h1, h3, ?_, ?_⟩
  · intro p hp
    exact h4 p.1 (List.mem_map_of_mem Prod.fst hp) d (by simp)
  · intro p hp
    exact h2 p.1 (List.mem_map_of_mem Prod.fst hp)

theorem insert_entries (cnt : Nat) (s : CStr) (t : Dict) (h : t.Sorted) :
    (zz_dict_insert cnt t s).1.entries = einsert s cnt t.entries := by
  induction t with
  | nil => simp [zz_dict_insert, Dict.entries, einsert]
  | node l r k a d ihl ihr =>
    obtain ⟨hl, hr, hld, hrd⟩ := sorted_node h
    cases hc : strcmp s d with
    | lt =>
      simp only [zz_dict_insert, hc, entries_split, entries_skew, Dict.entries]
      rw [ihl hl, einsert_append_lt hc]
    | gt =>
      simp only [zz_dict_insert, hc, entries_split, entries_skew, Dict.entries]
      rw [ihr hr, einsert_append_gt hc]
      intro p hp
      exact strcmp_gt_iff.2 (sLt_trans (hld p hp) (strcmp_gt_iff.1 hc))
    | eq =>
      have hsd : s = d := strcmp_eq_iff.1 hc
      subst hsd
      simp only [zz_dict_insert, hc, entries_split, entries_skew, Dict.entries]
      rw [einsert_append_eq]
      intro p hp
      exact strcmp_gt_iff.2 (hld p hp)

theorem insert_ret (cnt : Nat) (s : CStr) (t : Dict) (h : t.Sorted) :
    (s ∈ t.keys → (zz_dict_insert cnt t s).2.1 = cnt ∧
      (s, (zz_dict_insert cnt t s).2.2) ∈ t.entries) ∧
    (s ∉ t.keys → (zz_dict_insert cnt t s).2.1 = cnt + 1 ∧
      (zz_dict_insert cnt t s).2.2 = cnt) := by
  induction t with
  | nil => simp [zz_dict_insert, Dict.keys, Dict.entries]
  | node l r k a d ihl ihr =>
    obtain ⟨hl, hr, hld, hrd⟩ := sorted_node h
    have hkey : (Dict.node l r k a d).keys = l.keys ++ d :: r.keys := by
      simp [Dict.keys, Dict.entries]
    cases hc : strcmp s d with
    | lt =>
      have hsd : s ≠ d := sLt_ne hc
      have hsr : s ∉ r.keys := by
        intro hmem
        obtain ⟨p, hp, hps⟩ := List.mem_map.1 hmem
        have h1 : sLt d s := hps ▸ hrd p hp
        exact sLt_asymm hc h1
      constructor
      · intro hs
        have hsl : s ∈ l.keys := by
          rw [hkey] at hs
          rcases List.mem_append.1 hs with h1 | h1
          · exact h1
          · rcases List.mem_cons.1 h1 with h2 | h2
            · exact absurd h2 hsd
            · exact absurd h2 hsr
        have := (ihl hl).1 hsl
        simp only [zz_dict_insert, hc]
        exact ⟨this.1, by simp [Dict.entries]; exact Or.inl this.2⟩
      · intro hs
        have hsl : s ∉ l.keys := fun hmem => hs (by rw [hkey]; exact List.mem_append.2 (Or.inl hmem))
        have := (ihl hl).2 hsl
        simp only [zz_dict_insert, hc]
        exact this
    | gt =>
      have hds : sLt d s := strcmp_gt_iff.1 hc
      have hsd : s ≠ d := (sLt_ne hds).symm
      have hsl : s ∉ l.keys := by
        intro hmem
        obtain ⟨p, hp, hps⟩ := List.mem_map.1 hmem
        exact sLt_asymm hds (by rw [← hps]; exact hld p hp)
      constructor
      · intro hs
        have hsr : s ∈ r.keys := by
          rw [hkey] at hs
          rcases List.mem_append.1 hs with h1 | h1
          · exact absurd h1 hsl
          · rcases List.mem_cons.1 h1 with h2 | h2
            · exact absurd h2 hsd
            · exact h2
        have := (ihr hr).1 hsr
        simp only [zz_dict_insert, hc]
        exact ⟨this.1, by simp [Dict.entries]; exact Or.inr (Or.inr this.2)⟩
      · intro hs
        have hsr : s ∉ r.keys := fun hmem => hs (by rw [hkey]; simp [hmem])
        have := (ihr hr).2 hsr
        simp only [zz_dict_insert, hc]
        exact this
    | eq =>
      have hsd : s = d := strcmp_eq_iff.1 hc
      constructor
      · intro _
        refine ⟨by simp [zz_dict_insert, hc], ?_⟩
        simp [zz_dict_insert, hsd, strcmp_self, Dict.entries]
      · intro hs
        exact (hs (by rw [hkey]; simp [hsd])).elim

theorem mem_einsert_of_mem {p : CStr × Nat} {E : List (CStr × Nat)} (s : CStr) (a : Nat)
    (h : p ∈ E) : p ∈ einsert s a E := by
  induction E with
  | nil => cases h
  | cons q E ih =>
    obtain ⟨x, c⟩ := q
    rcases List.mem_cons.1 h with rfl | h1
    · cases hc : strcmp s x <;> simp [einsert, hc]
    · cases hc : strcmp s x <;> simp [einsert, hc, h1, ih h1]

theorem mem_fst_einsert {x s : CStr} {a : Nat} {E : List (CStr × Nat)} :
    x ∈ (einsert s a E).map Prod.fst ↔ x = s ∨ x ∈ E.map Prod.fst := by
  induction E with
  | nil => simp [einsert]
  | cons q E ih =>
    obtain ⟨y, c⟩ := q
    cases hc : strcmp s y with
    | lt => simp [einsert, hc]
    | gt => simp [einsert, hc, ih]; tauto
    | eq =>
      have : s = y := strcmp_eq_iff.1 hc
      subst this
      simp [einsert, hc]

theorem einsert_eq_self {s : CStr} {a : Nat} {E : List (CStr × Nat)}
    (hE : E.Pairwise (fun p q => sLt p.1 q.1)) (hs : s ∈ E.map Prod.fst) :
    einsert s a E = E := by
  induction E with
  | nil => simp at hs
  | cons q E ih =>
    obtain ⟨y, c⟩ := q
    rw [List.pairwise_cons] at hE
    cases hc : strcmp s y with
    | eq => simp [einsert, hc]
    | gt =>
      have hsy : s ≠ y := fun h => by rw [h, strcmp_self] at hc; cases hc
      have hs1 : s ∈ E.map Prod.fst := by
        rcases List.mem_cons.1 hs with h1 | h1
        · simp at h1; exact absurd h1 hsy
        · exact h1
      simp [einsert, hc, ih hE.2 hs1]
    | lt =>
      exfalso
      have hsy : s ≠ y := sLt_ne hc
      have hs1 : s ∈ E.map Prod.fst := by
        rcases List.mem_cons.1 hs with h1 | h1
        · simp at h1; exact absurd h1 hsy
        · exact h1
      obtain ⟨p, hp, hps⟩ := List.mem_map.1 hs1
      have : sLt y s := hps ▸ hE.1 p hp
      exact sLt_asymm hc this

theorem einsert_perm {s : CStr} {a : Nat} {E : List (CStr × Nat)}
    (hs : s ∉ E.map Prod.fst) : List.Perm (einsert s a E) ((s, a) :: E) := by
  induction E with
  | nil => simp [einsert]
  | cons q E ih =>
    obtain ⟨y, c⟩ := q
    have hsy : s ≠ y := fun h => hs (by simp [h])
    cases hc : strcmp s y with
    | eq => exact absurd (strcmp_eq_iff.1 hc) hsy
    | lt => simp [einsert, hc]
    | gt =>
      have hs1 : s ∉ E.map Prod.fst := fun h => hs (by simp [h])
      rw [einsert]
      simp only [hc]
      exact ((ih hs1).cons (y, c)).trans (List.Perm.swap (s, a) (y, c) E)

theorem einsert_pairwise {s : CStr} {a : Nat} {E : List (CStr × Nat)}
    (hE : E.Pairwise (fun p q => sLt p.1 q.1)) :
    (einsert s a E).Pairwise (fun p q => sLt p.1 q.1) := by
  induction E with
  | nil => simp [einsert]
  | cons q E ih =>
    obtain ⟨y, c⟩ := q
    rw [List.pairwise_cons] at hE
    cases hc : strcmp s y with
    | eq =>
      rw [einsert]
      simp only [hc]
      rw [List.pairwise_cons]
      exact hE
    | lt =>
      rw [einsert]
      simp only [hc]
      rw [List.pairwise_cons]
      constructor
      · intro p hp
        rcases List.mem_cons.1 hp with rfl | h1
        · exact hc
        · exact sLt_trans hc (hE.1 p h1)
      · rw [List.pairwise_cons]
        exact hE
    | gt =>
      rw [einsert]
      simp only [hc]
      rw [List.pairwise_cons]
      refine ⟨?_, ih hE.2⟩
      intro p hp
      have := List.mem_map_of_mem Prod.fst hp
      rw [mem_fst_einsert] at this
      rcases this with h1 | h1
      · rw [h1]; exact strcmp_gt_iff.1 hc
      · obtain ⟨q, hq, hqp⟩ := List.mem_map.1 h1
        exact hqp ▸ hE.1 q hq

theorem assoc_fst_unique {E : List (CStr × Nat)} {s : CStr} {x y : Nat}
    (hE : E.Pairwise (fun p q => sLt p.1 q.1))
    (h1 : (s, x) ∈ E) (h2 : (s, y) ∈ E) : x = y := by
  induction E with
  | nil => cases h1
  | cons q E ih =>
    obtain ⟨z, w⟩ := q
    rw [List.pairwise_cons] at hE
    rcases List.mem_cons.1 h1 with h3 | hm1
    · have hsz : s = z ∧ x = w := by simpa using h3
      rcases List.mem_cons.1 h2 with h4 | hm2
      · have hsy : s = z ∧ y = w := by simpa using h4
        omega
      · have := hE.1 _ hm2
        rw [← hsz.1] at this
        exact absurd this (sLt_irrefl s)
    · rcases List.mem_cons.1 h2 with h4 | hm2
      · have hsy : s = z ∧ y = w := by simpa using h4
        have := hE.1 _ hm1
        rw [← hsy.1] at this
        exact absurd this (sLt_irrefl s)
      · exact ih hE.2 hm1 hm2

theorem assoc_snd_unique {E : List (CStr × Nat)} {s1 s2 : CStr} {x : Nat}
    (hN : (E.map Prod.snd).Nodup)
    (h1 : (s1, x) ∈ E) (h2 : (s2, x) ∈ E) : s1 = s2 := by
  induction E with
  | nil => cases h1
  | cons q E ih =>
    obtain ⟨z, w⟩ := q
    rw [List.map_cons, List.nodup_cons] at hN
    rcases List.mem_cons.1 h1 with h3 | hm1
    · have ha : s1 = z ∧ x = w := by simpa using h3
      rcases List.mem_cons.1 h2 with h4 | hm2
      · have hb : s2 = z ∧ x = w := by simpa using h4
        rw [ha.1, hb.1]
      · exfalso
        apply hN.1
        have := List.mem_map_of_mem Prod.snd hm2
        simpa [← ha.2] using this
    · rcases List.mem_cons.1 h2 with h4 | hm2
      · have hb : s2 = z ∧ x = w := by simpa using h4
        exfalso
        apply hN.1
        have := List.mem_map_of_mem Prod.snd hm1
        simpa [← hb.2] using this
      · exact ih hN.2 hm1 hm2

/-! ## Interning preserves well-formedness -/

theorem size_eq_entries_length (t : Dict) : t.size = t.entries.length := by
  induction t with
  | nil => rfl
  | node l r k a d ihl ihr => simp [Dict.size, Dict.entries, ihl, ihr]; omega

theorem WF_init : zz_tree_init.WF := by
  refine ⟨?_, ?_, ?_⟩ <;> simp [zz_tree_init, Dict.Sorted, Dict.keys, Dict.Bounded,
    Dict.AddrNodup, Dict.entries]

theorem WF_alloc_string {t : ZZTreeSt} (h : t.WF) (s : CStr) :
    (zz_alloc_string t s).1.WF := by
  obtain ⟨hs, hb, hn⟩ := h
  have hent := insert_entries t.counter s t.strings hs
  have hret := insert_ret t.counter s t.strings hs
  have hpair : t.strings.entries.Pairwise (fun p q => sLt p.1 q.1) := by
    have := hs
    unfold Dict.Sorted Dict.keys at this
    exact (List.pairwise_map).1 this
  refine ⟨?_, ?_, ?_⟩
  · unfold ZZTreeSt.WF Dict.Sorted Dict.keys zz_alloc_string at *
    simp only at *
    rw [hent]
    exact (List.pairwise_map).2 (einsert_pairwise hpair)
  · intro p hp
    simp only [zz_alloc_string] at hp ⊢
    rw [hent] at hp
    by_cases hk : s ∈ t.strings.keys
    · rw [einsert_eq_self hpair hk] at hp
      have h1 := (hret.1 hk).1
      rw [h1]
      calc p.2 < t.counter := hb p hp
        _ ≤ t.counter := le_refl _
    · have h1 := (hret.2 hk).1
      rw [h1]
      have := (einsert_perm (s := s) (a := t.counter) hk).mem_iff.1 hp
      rcases List.mem_cons.1 this with rfl | h2
      · omega
      · have := hb p h2
        omega
  · simp only [zz_alloc_string, Dict.AddrNodup]
    rw [hent]
    by_cases hk : s ∈ t.strings.keys
    · rw [einsert_eq_self hpair hk]
      exact hn
    · have hperm := (einsert_perm (s := s) (a := t.counter) hk).map Prod.snd
      rw [hperm.nodup_iff]
      rw [List.map_cons, List.nodup_cons]
      refine ⟨?_, hn⟩
      intro hmem
      obtain ⟨p, hp, hps⟩ := List.mem_map.1 hmem
      have := hb p hp
      omega

theorem WF_internAll (t : ZZTreeSt) (ss : List CStr) (h : t.WF) : (internAll t ss).WF := by
  induction ss generalizing t with
  | nil => exact h
  | cons s ss ih =>
    unfold internAll
    rw [List.foldl_cons]
    exact ih _ (WF_alloc_string h s)

theorem alloc_string_rv_mem {t : ZZTreeSt} (h : t.WF) (s : CStr) :
    (s, (zz_alloc_string t s).2) ∈ (zz_alloc_string t s).1.strings.entries := by
  obtain ⟨hs, hb, hn⟩ := h
  have hent := insert_entries t.counter s t.strings hs
  have hret := insert_ret t.counter s t.strings hs
  simp only [zz_alloc_string]
  rw [hent]
  by_cases hk : s ∈ t.strings.keys
  · exact mem_einsert_of_mem s t.counter ((hret.1 hk).2)
  · rw [(hret.2 hk).2]
    exact (einsert_perm hk).mem_iff.2 (List.mem_cons_self _ _)

theorem alloc_string_mem_mono {t : ZZTreeSt} (h : t.WF) (s : CStr) {p : CStr × Nat}
    (hp : p ∈ t.strings.entries) : p ∈ (zz_alloc_string t s).1.strings.entries := by
  have hent := insert_entries t.counter s t.strings h.1
  simp only [zz_alloc_string]
  rw [hent]
  exact mem_einsert_of_mem s t.counter hp

theorem pairwise_entries_of_sorted {t : Dict} (h : t.Sorted) :
    t.entries.Pairwise (fun p q => sLt p.1 q.1) := by
  unfold Dict.Sorted Dict.keys at h
  exact (List.pairwise_map).1 h

/-- C1: interning is idempotent on references.  Over any tree reachable by
interning a list of strings from `zz_tree_init`: interning the same string
twice hands back the same arena reference both times; interning two
different strings, one after the other, hands back different references;
and interning a string already present advances no allocation (the
fresh-address supply is untouched) and adds no dictionary node. -/
theorem interning_identity (ss : List CStr) (s s1 s2 : CStr) :
    ((zz_alloc_string (internAll zz_tree_init ss) s).2 =
      (zz_alloc_string (zz_alloc_string (internAll zz_tree_init ss) s).1 s).2) ∧
    (s1 ≠ s2 →
      (zz_alloc_string (internAll zz_tree_init ss) s1).2 ≠
      (zz_alloc_string (zz_alloc_string (internAll zz_tree_init ss) s1).1 s2).2) ∧
    (s ∈ (internAll zz_tree_init ss).strings.keys →
      (zz_alloc_string (internAll zz_tree_init ss) s).1.counter =
        (internAll zz_tree_init ss).counter ∧
      (zz_alloc_string (internAll zz_tree_init ss) s).1.strings.size =
        (internAll zz_tree_init ss).strings.size) := by
  have hWF : (internAll zz_tree_init ss).WF := WF_internAll _ _ WF_init
  refine ⟨?_, ?_, ?_⟩
  · have hWF1 := WF_alloc_string hWF s
    have h1 := alloc_string_rv_mem hWF s
    have hkey : s ∈ (zz_alloc_string (internAll zz_tree_init ss) s).1.strings.keys :=
      List.mem_map_of_mem Prod.fst h1
    have hret := insert_ret (zz_alloc_string (internAll zz_tree_init ss) s).1.counter s
      (zz_alloc_string (internAll zz_tree_init ss) s).1.strings hWF1.1
    have h2 := (hret.1 hkey).2
    exact assoc_fst_unique (pairwise_entries_of_sorted hWF1.1) h1 h2
  · intro hne heq
    have hWF1 := WF_alloc_string hWF s1
    have hWF2 := WF_alloc_string hWF1 s2
    have h1 := alloc_string_rv_mem hWF s1
    have h2 := alloc_string_rv_mem hWF1 s2
    have h1' := alloc_string_mem_mono hWF1 s2 h1
    rw [heq] at h1'
    exact hne (assoc_snd_unique hWF2.2.2 h1' h2)
  · intro hk
    have hent := insert_entries (internAll zz_tree_init ss).counter s
      (internAll zz_tree_init ss).strings hWF.1
    have hret := insert_ret (internAll zz_tree_init ss).counter s
      (internAll zz_tree_init ss).strings hWF.1
    refine ⟨(hret.1 hk).1, ?_⟩
    rw [size_eq_entries_length, size_eq_entries_length]
    simp only [zz_alloc_string]
    rw [hent, einsert_eq_self (pairwise_entries_of_sorted hWF.1) hk]

theorem interning_identity_witness :
    (([2] : CStr) ≠ [1] ∧
      (zz_alloc_string (internAll zz_tree_init [[1]]) [2]).2 ≠
        (zz_alloc_string (zz_alloc_string (internAll zz_tree_init [[1]]) [2]).1 [1]).2) ∧
    (([1] : CStr) ∈ (internAll zz_tree_init [[1]]).strings.keys ∧
      (zz_alloc_string (internAll zz_tree_init [[1]]) [1]).1.counter =
        (internAll zz_tree_init [[1]]).counter) :=
  ⟨⟨by decide, (interning_identity [[1]] [1] [2] [1]).2.1 (by decide)⟩,
   ⟨by decide, ((interning_identity [[1]] [1] [2] [1]).2.2 (by decide)).1⟩⟩

theorem mem_keys_internAll (ss : List CStr) (t : ZZTreeSt) (h : t.WF) (x : CStr) :
    x ∈ (internAll t ss).strings.keys ↔ x ∈ ss ∨ x ∈ t.strings.keys := by
  induction ss generalizing t with
  | nil => simp [internAll]
  | cons s ss ih =>
    have h1 : internAll t (s :: ss) = internAll (zz_alloc_string t s).1 ss := by
      simp [internAll]
    rw [h1, ih _ (WF_alloc_string h s)]
    have hkeys : x ∈ (zz_alloc_string t s).1.strings.keys ↔ x = s ∨ x ∈ t.strings.keys := by
      simp only [zz_alloc_string, Dict.keys]
      rw [insert_entries t.counter s t.strings h.1]
      exact mem_fst_einsert
    rw [hkeys]
    simp only [List.mem_cons]
    tauto

/-- C3: after interning any list of strings into one tree from scratch,
the in-order traversal of the dictionary lists exactly the distinct
interned strings in strictly ascending strcmp order (strict ascent leaves
no room for duplicates); and the skew and split rotations leave the
in-order traversal — hence the binary-search-tree order — untouched on any
dictionary. -/
theorem dict_inorder_sorted (ss : List CStr) (t : Dict) (x : CStr) :
    ((internAll zz_tree_init ss).strings.keys.Pairwise sLt ∧
      (x ∈ (internAll zz_tree_init ss).strings.keys ↔ x ∈ ss)) ∧
    ((zz_dict_skew t).entries = t.entries ∧ (zz_dict_split t).entries = t.entries) := by
  refine ⟨⟨(WF_internAll zz_tree_init ss WF_init).1, ?_⟩, entries_skew t, entries_split t⟩
  rw [mem_keys_internAll ss zz_tree_init WF_init x]
  simp [zz_tree_init, Dict.keys, Dict.entries]

/-! ## AA balance of the dictionary -/

theorem skew_id_of_ne {l r : Dict} {k a : Nat} {d : CStr} (h : l.lvl ≠ k) :
    zz_dict_skew (.node l r k a d) = .node l r k a d := by
  cases l with
  | nil => rfl
  | node ll lr lk la ld =>
    simp only [zz_dict_skew]
    rw [if_neg]
    simpa [Dict.lvl] using h

theorem split_id_of_rlvl_lt {l r : Dict} {k a : Nat} {d : CStr} (h : r.rlvl < k) :
    zz_dict_split (.node l r k a d) = .node l r k a d := by
  cases r with
  | nil => rfl
  | node rl rr rk ra rd =>
    cases rr with
    | nil => rfl
    | node rrl rrr rrk rra rrd =>
      simp only [zz_dict_split]
      rw [if_neg]
      simp only [Dict.rlvl, Dict.lvl] at h
      omega

theorem AA_rlvl_le {t : Dict} (h : t.AA) : t.rlvl ≤ t.lvl := by
  cases t with
  | nil => exact le_refl 0
  | node l r k a d =>
    have h1 := h.2.2.2
    show r.lvl ≤ k
    rcases h1 with h1 | h1 <;> omega

theorem lvl_nil : Dict.nil.lvl = 0 := rfl

theorem lvl_node {l r : Dict} {k a : Nat} {d : CStr} : (Dict.node l r k a d).lvl = k := rfl

theorem rlvl_node {l r : Dict} {k a : Nat} {d : CStr} : (Dict.node l r k a d).rlvl = r.lvl := rfl

theorem single_node {l r : Dict} {k a : Nat} {d : CStr} :
    (Dict.node l r k a d).Single ↔ r.lvl < k := Iff.rfl

theorem AA_node {l r : Dict} {k a : Nat} {d : CStr} :
    (Dict.node l r k a d).AA ↔
      (l.AA ∧ r.AA ∧ k = l.lvl + 1 ∧ (k = r.lvl + 1 ∨ (k = r.lvl ∧ k = r.rlvl + 1))) :=
  Iff.rfl

theorem AA_node_of_lvl_pos {t : Dict} (h : 0 < t.lvl) :
    ∃ l r a d, t = .node l r t.lvl a d := by
  cases t with
  | nil => simp [Dict.lvl] at h
  | node l r k a d => exact ⟨l, r, a, d, rfl⟩

theorem insert_AA (cnt : Nat) (s : CStr) (t : Dict) (h : t.AA) :
    (zz_dict_insert cnt t s).1.AA ∧
    ((zz_dict_insert cnt t s).1.lvl = t.lvl ∨ (zz_dict_insert cnt t s).1.lvl = t.lvl + 1) ∧
    ((zz_dict_insert cnt t s).1.lvl = t.lvl + 1 → (zz_dict_insert cnt t s).1.Single) ∧
    (t.Single → (zz_dict_insert cnt t s).1.lvl = t.lvl) := by
  induction t with
  | nil =>
    simp [zz_dict_insert, Dict.AA, Dict.lvl, Dict.Single, Dict.rlvl]
  | node l r k a d ihl ihr =>
    obtain ⟨hAAl, hAAr, hkl, hD⟩ := h
    cases hc : strcmp s d with
    | eq =>
      simp only [zz_dict_insert, hc]
      have hrle := AA_rlvl_le hAAr
      have hlne : l.lvl ≠ k := by omega
      have hrr : r.rlvl < k := by rcases hD with h1 | ⟨h1, h2⟩ <;> omega
      rw [skew_id_of_ne hlne, split_id_of_rlvl_lt hrr]
      exact ⟨⟨hAAl, hAAr, hkl, hD⟩, Or.inl rfl,
        by simp only [lvl_node]; omega, fun _ => rfl⟩
    | lt =>
      obtain ⟨hA1, hlv, hinc, hsng⟩ := ihl hAAl
      simp only [zz_dict_insert, hc]
      rcases hlv with hlv | hlv
      · -- level of the left insert unchanged: neither rotation applies
        have hlne : (zz_dict_insert cnt l s).1.lvl ≠ k := by omega
        have hrle := AA_rlvl_le hAAr
        have hrr : r.rlvl < k := by rcases hD with h1 | ⟨h1, h2⟩ <;> omega
        rw [skew_id_of_ne hlne, split_id_of_rlvl_lt hrr]
        refine ⟨?_, Or.inl rfl, by simp only [lvl_node]; omega, fun _ => rfl⟩
        rw [AA_node]
        exact ⟨hA1, hAAr, by omega, hD⟩
      · -- the left insert reached the node's own level: skew fires
        have hS := hinc (by omega)
        rcases hgen : (zz_dict_insert cnt l s).1 with _ | ⟨la, lb, lk, aa, dd⟩
        · rw [hgen, lvl_nil] at hlv; omega
        · rw [hgen] at hlv hA1 hS
          rw [lvl_node] at hlv
          have hlk : lk = k := by omega
          subst hlk
          rw [AA_node] at hA1
          obtain ⟨hAla, hAlb, hkla, hDl⟩ := hA1
          rw [single_node] at hS
          have hklb : lk = lb.lvl + 1 := by rcases hDl with h1 | ⟨h1, h2⟩ <;> omega
          have hskew : zz_dict_skew (.node (.node la lb lk aa dd) r lk a d) =
              .node la (.node lb r lk a d) lk aa dd := by
            simp [zz_dict_skew]
          rw [hskew]
          rcases hD with hD1 | ⟨hD1, hD2⟩
          · -- original right child one below: no split
            have hmr : (Dict.node lb r lk a d).rlvl < lk := by
              rw [rlvl_node]; omega
            rw [split_id_of_rlvl_lt hmr]
            refine ⟨?_, Or.inl rfl, by simp only [lvl_node]; omega, fun _ => rfl⟩
            rw [AA_node]
            refine ⟨hAla, ?_, hkla, Or.inr ⟨by rw [lvl_node], by rw [rlvl_node]; omega⟩⟩
            rw [AA_node]
            exact ⟨hAlb, hAAr, hklb, Or.inl hD1⟩
          · -- original right child at the node's level: split promotes
            rcases r with _ | ⟨rl2, rr2, rk2, ar, dr⟩
            · rw [lvl_nil] at hD1; omega
            · rw [lvl_node] at hD1
              subst hD1
              have hsp : zz_dict_split (.node la
                  (.node lb (.node rl2 rr2 lk ar dr) lk a d) lk aa dd) =
                  .node (.node la lb lk aa dd) (.node rl2 rr2 lk ar dr) (lk + 1) a d := by
                simp [zz_dict_split]
              rw [hsp]
              refine ⟨?_, Or.inr (by simp only [lvl_node]),
                fun _ => by simp only [single_node, lvl_node]; omega,
                fun hSt => by simp only [single_node, lvl_node] at hSt; omega⟩
              rw [AA_node]
              refine ⟨?_, hAAr, by simp only [lvl_node], Or.inl (by simp only [lvl_node])⟩
              rw [AA_node]
              exact ⟨hAla, hAlb, hkla, hDl⟩
    | gt =>
      obtain ⟨hA1, hlv, hinc, hsng⟩ := ihr hAAr
      simp only [zz_dict_insert, hc]
      have hlne : l.lvl ≠ k := by omega
      rw [skew_id_of_ne hlne]
      rcases hD with hD1 | ⟨hD1, hD2⟩
      · -- original right child one below the node
        rcases hlv with hlv | hlv
        · -- level unchanged: no split
          have hrle := AA_rlvl_le hA1
          rw [split_id_of_rlvl_lt (show (zz_dict_insert cnt r s).1.rlvl < k by omega)]
          refine ⟨?_, Or.inl rfl, by simp only [lvl_node]; omega, fun _ => rfl⟩
          rw [AA_node]
          exact ⟨hAAl, hA1, hkl, Or.inl (by omega)⟩
        · -- level reached the node's level; the promoted tree is single
          have hS := hinc (by omega)
          have hrr1 : (zz_dict_insert cnt r s).1.rlvl < (zz_dict_insert cnt r s).1.lvl := by
            rcases hq : (zz_dict_insert cnt r s).1 with _ | ⟨ra2, rb2, rk1, ar1, dr1⟩
            · rw [hq] at hS; exact absurd hS (by rw [Dict.Single]; exact fun h => h)
            · rw [hq, single_node] at hS
              rw [rlvl_node, lvl_node]
              exact hS
          rw [split_id_of_rlvl_lt (by omega)]
          have hsr : (zz_dict_insert cnt r s).1.lvl = (zz_dict_insert cnt r s).1.rlvl + 1 := by
            rcases hq : (zz_dict_insert cnt r s).1 with _ | ⟨ra2, rb2, rk1, ar1, dr1⟩
            · rw [hq, lvl_nil] at hlv; omega
            · rw [hq] at hA1 hrr1
              rw [AA_node] at hA1
              obtain ⟨h1, h2, h3, h4⟩ := hA1
              rw [rlvl_node, lvl_node] at hrr1
              rw [rlvl_node, lvl_node]
              rcases h4 with h4 | ⟨h4, h5⟩ <;> omega
          refine ⟨?_, Or.inl rfl, by simp only [lvl_node]; omega, fun _ => rfl⟩
          rw [AA_node]
          exact ⟨hAAl, hA1, hkl, Or.inr ⟨by omega, by omega⟩⟩
      · -- original right child at the node's level: it is single, level kept
        have hrpos : 0 < r.lvl := by omega
        have hSr : r.Single := by
          rcases r with _ | ⟨rl2, rr2, rk2, ar, dr⟩
          · rw [lvl_nil] at hrpos; omega
          · rw [single_node]
            rw [lvl_node] at hD1
            rw [rlvl_node] at hD2
            have : rr2.lvl = (Dict.node rl2 rr2 rk2 ar dr).rlvl := (rlvl_node).symm
            rw [rlvl_node] at this
            omega
        have hr1lvl := hsng hSr
        rcases hq : (zz_dict_insert cnt r s).1 with _ | ⟨ra2, rb2, rk1, ar1, dr1⟩
        · rw [hq, lvl_nil] at hr1lvl; omega
        · rw [hq] at hr1lvl hA1
          rw [lvl_node] at hr1lvl
          have hrk1 : rk1 = k := by omega
          subst hrk1
          rw [AA_node] at hA1
          obtain ⟨hAra, hArb, hra1, hDr1⟩ := hA1
          rcases hDr1 with hE | ⟨hE1, hE2⟩
          · -- new right grandchild one below: no split
            have hmr : (Dict.node ra2 rb2 rk1 ar1 dr1).rlvl < rk1 := by
              rw [rlvl_node]; omega
            rw [split_id_of_rlvl_lt hmr]
            refine ⟨?_, Or.inl rfl, by simp only [lvl_node]; omega, fun _ => rfl⟩
            rw [AA_node]
            refine ⟨hAAl, ?_, hkl, Or.inr ⟨by rw [lvl_node], by rw [rlvl_node]; omega⟩⟩
            rw [AA_node]
            exact ⟨hAra, hArb, hra1, Or.inl hE⟩
          · -- new right grandchild at the node's level: split promotes
            rcases rb2 with _ | ⟨rc, rd2, rk3, ac, dc⟩
            · rw [lvl_nil] at hE1; omega
            · rw [lvl_node] at hE1
              subst hE1
              have hsp : zz_dict_split (.node l
                  (.node ra2 (.node rc rd2 rk1 ac dc) rk1 ar1 dr1) rk1 a d) =
                  .node (.node l ra2 rk1 a d) (.node rc rd2 rk1 ac dc) (rk1 + 1) ar1 dr1 := by
                simp [zz_dict_split]
              rw [hsp]
              refine ⟨?_, Or.inr (by simp only [lvl_node]),
                fun _ => by simp only [single_node, lvl_node]; omega,
                fun hSt => by rw [single_node] at hSt; omega⟩
              rw [AA_node]
              refine ⟨?_, hArb, by simp only [lvl_node], Or.inl (by simp only [lvl_node])⟩
              rw [AA_node]
              exact ⟨hAAl, hAra, hkl, Or.inl (by omega)⟩

theorem AA_ClaimInv : ∀ t : Dict, t.AA → t.ClaimInv := by
  intro t
  induction t with
  | nil => intro _; trivial
  | node l r k a d ihl ihr =>
    intro h
    obtain ⟨hl, hr, hkl, hD⟩ := h
    refine ⟨ihl hl, ihr hr, ?_, ?_⟩
    · cases l with
      | nil => trivial
      | node ll lr lk la ld =>
        rw [lvl_node] at hkl
        omega
    · cases r with
      | nil => trivial
      | node rl rr rk ra rd =>
        cases rr with
        | nil => trivial
        | node rrl rrr rrk rra rrd =>
          obtain ⟨h1, h2, h3, hDr⟩ := hr
          rw [lvl_node, rlvl_node, lvl_node] at hD
          rw [lvl_node] at hDr
          rw [rlvl_node] at hDr
          show rrk ≤ k
          rcases hD with hD | ⟨hD, hDq⟩ <;> rcases hDr with hDr | ⟨hDr, hDrq⟩ <;> omega

theorem internAll_AA (ss : List CStr) (t : ZZTreeSt) (h : t.strings.AA) :
    (internAll t ss).strings.AA := by
  induction ss generalizing t with
  | nil => exact h
  | cons s ss ih =>
    have h1 : internAll t (s :: ss) = internAll (zz_alloc_string t s).1 ss := by
      simp [internAll]
    rw [h1]
    exact ih _ (insert_AA t.counter s t.strings h).1

/-- C2: after any sequence of insertions into the string dictionary
starting from the empty tree (fresh nodes at level 1, skew then split at
every node of the descent path), the claimed AA balance holds everywhere:
no left child shares its parent's level, and no right grandchild's level
exceeds its grandparent's level.  Proved through the full AA invariant,
which insertion preserves. -/
theorem dict_balanced (ss : List CStr) : (internAll zz_tree_init ss).strings.ClaimInv :=
  AA_ClaimInv _ (internAll_AA ss zz_tree_init trivial)

/-! ## The blob allocator -/

theorem getD_set_of_ne {α : Type} {i j : Nat} (l : List α) (x d : α) (h : i ≠ j) :
    (l.set i x).getD j d = l.getD j d := by
  simp [List.getD_eq_getElem?_getD, List.getElem?_set_ne h]

theorem mem_getD_flatten {l : List (List Blob)} {i : Nat} {b : Blob}
    (h : b ∈ l.getD i []) : b ∈ l.flatten := by
  rw [List.getD_eq_getElem?_getD] at h
  cases hq : l[i]? with
  | none => rw [hq] at h; simp at h
  | some ch =>
    rw [hq] at h
    simp only [Option.getD_some] at h
    exact List.mem_flatten.2 ⟨ch, List.getElem?_mem hq, h⟩

theorem zz_alloc_in_blobs_bump (BS cnt n : Nat) (b : Blob) (rest : List Blob)
    (h : b.used + n ≤ BS) :
    zz_alloc_in_blobs BS cnt (b :: rest) n =
      ({ b with used := b.used + n } :: rest, cnt, (b.id, b.used)) := by
  simp [zz_alloc_in_blobs, Nat.not_lt.2 h]

theorem zz_alloc_in_blobs_fresh (BS cnt n : Nat) (ch : List Blob)
    (h : ch.head? = none ∨ ∃ b, ch.head? = some b ∧ BS < b.used + n) :
    zz_alloc_in_blobs BS cnt ch n =
      (⟨cnt, BS, n, List.replicate BS 0⟩ :: ch, cnt + 1, (cnt, 0)) := by
  cases ch with
  | nil => simp [zz_alloc_in_blobs]
  | cons b rest =>
    rcases h with h | ⟨b2, hb2, h⟩
    · simp at h
    · simp only [List.head?_cons, Option.some.injEq] at hb2
      subst hb2
      simp [zz_alloc_in_blobs, h]

theorem zz_alloc_small (BS : Nat) (s : AllocSt) (n : Nat) (h : n ≤ 1024) :
    ∃ c, c ∈ sizeClasses ∧ n ≤ c ∧ (∀ c2 ∈ sizeClasses, n ≤ c2 → c ≤ c2) ∧
      minClass n = some c ∧ classIdx n < 8 ∧
      zz_alloc BS s n = allocAt BS s (classIdx n) c := by
  by_cases h8 : n ≤ 8
  · refine ⟨8, by simp [sizeClasses], h8, ?_, ?_, by simp [classIdx, h8], ?_⟩
    · intro c2 hc2 hn2; simp [sizeClasses] at hc2; omega
    · simp [minClass, sizeClasses, List.find?, h8]
    · simp [zz_alloc, classIdx, h8]
  · by_cases h16 : n ≤ 16
    · refine ⟨16, by simp [sizeClasses], h16, ?_, ?_, by simp [classIdx, h8, h16], ?_⟩
      · intro c2 hc2 hn2; simp [sizeClasses] at hc2; omega
      · simp [minClass, sizeClasses, List.find?, h8, h16]
      · simp [zz_alloc, classIdx, h8, h16]
    · by_cases h32 : n ≤ 32
      · refine ⟨32, by simp [sizeClasses], h32, ?_, ?_, by simp [classIdx, h8, h16, h32], ?_⟩
        · intro c2 hc2 hn2; simp [sizeClasses] at hc2; omega
        · simp [minClass, sizeClasses, List.find?, h8, h16, h32]
        · simp [zz_alloc, classIdx, h8, h16, h32]
      · by_cases h64 : n ≤ 64
        · refine ⟨64, by simp [sizeClasses], h64, ?_, ?_,
            by simp [classIdx, h8, h16, h32, h64], ?_⟩
          · intro c2 hc2 hn2; simp [sizeClasses] at hc2; omega
          · simp [minClass, sizeClasses, List.find?, h8, h16, h32, h64]
          · simp [zz_alloc, classIdx, h8, h16, h32, h64]
        · by_cases h128 : n ≤ 128
          · refine ⟨128, by simp [sizeClasses], h128, ?_, ?_,
              by simp [classIdx, h8, h16, h32, h64, h128], ?_⟩
            · intro c2 hc2 hn2; simp [sizeClasses] at hc2; omega
            · simp [minClass, sizeClasses, List.find?, h8, h16, h32, h64, h128]
            · simp [zz_alloc, classIdx, h8, h16, h32, h64, h128]
          · by_cases h256 : n ≤ 256
            · refine ⟨256, by simp [sizeClasses], h256, ?_, ?_,
                by simp [classIdx, h8, h16, h32, h64, h128, h256], ?_⟩
              · intro c2 hc2 hn2; simp [sizeClasses] at hc2; omega
              · simp [minClass, sizeClasses, List.find?, h8, h16, h32, h64, h128, h256]
              · simp [zz_alloc, classIdx, h8, h16, h32, h64, h128, h256]
            · by_cases h512 : n ≤ 512
              · refine ⟨512, by simp [sizeClasses], h512, ?_, ?_,
                  by simp [classIdx, h8, h16, h32, h64, h128, h256, h512], ?_⟩
                · intro c2 hc2 hn2; simp [sizeClasses] at hc2; omega
                · simp [minClass, sizeClasses, List.find?, h8, h16, h32, h64, h128, h256, h512]
                · simp [zz_alloc, classIdx, h8, h16, h32, h64, h128, h256, h512]
              · refine ⟨1024, by simp [sizeClasses], h, ?_, ?_,
                  by simp [classIdx, h8, h16, h32, h64, h128, h256, h512], ?_⟩
                · intro c2 hc2 hn2; simp [sizeClasses] at hc2; omega
                · simp [minClass, sizeClasses, List.find?, h8, h16, h32, h64, h128, h256, h512, h]
                · simp [zz_alloc, classIdx, h8, h16, h32, h64, h128, h256, h512, h]

theorem zz_alloc_overflow (BS : Nat) (s : AllocSt) (n : Nat) (h : 1024 < n) :
    zz_alloc BS s n =
      (⟨s.counter + 1,
        s.chains.set 8 ((⟨s.counter, n, n, List.replicate n 0⟩ : Blob) ::
          s.chains.getD 8 [])⟩,
       (s.counter, 0)) := by
  unfold zz_alloc
  split_ifs with u1 u2 u3 u4 u5 u6 u7 u8 <;> first | omega | rfl

theorem overflowShape_store (s : AllocSt) (bid off v : Nat) :
    overflowShape (storeByte s bid off v) = overflowShape s := by
  unfold overflowShape storeByte
  simp only [List.getD_eq_getElem?_getD, List.getElem?_map]
  cases hq : s.chains[8]? with
  | none => simp
  | some ch =>
    simp only [Option.map_some', Option.getD_some, List.map_map]
    apply List.map_congr_left
    intro b _
    by_cases hb : b.id = bid ∧ off < b.used <;> simp [hb]

theorem overflowShape_alloc (BS : Nat) (s : AllocSt) (n : Nat) :
    ∃ pre, overflowShape (zz_alloc BS s n).1 = pre ++ overflowShape s := by
  by_cases h : n ≤ 1024
  · obtain ⟨c, _, _, _, _, hidx, heq⟩ := zz_alloc_small BS s n h
    rw [heq]
    refine ⟨[], ?_⟩
    unfold overflowShape allocAt
    simp only
    rw [getD_set_of_ne _ _ _ (by omega)]
    simp
  · rw [zz_alloc_overflow BS s n (by omega)]
    by_cases hl : 8 < s.chains.length
    · refine ⟨[(s.counter, n, n)], ?_⟩
      unfold overflowShape
      simp only
      rw [List.getD_eq_getElem?_getD, List.getElem?_set_self hl, Option.getD_some]
      simp
    · refine ⟨[], ?_⟩
      unfold overflowShape
      simp only
      rw [List.set_eq_of_length_le (by omega)]
      simp

theorem runOps_overflowShape (BS : Nat) (ops : List AOp) (s : AllocSt) :
    ∃ pre, overflowShape (runOps BS s ops) = pre ++ overflowShape s := by
  induction ops generalizing s with
  | nil => exact ⟨[], rfl⟩
  | cons op ops ih =>
    cases op with
    | alloc n =>
      obtain ⟨pre1, h1⟩ := overflowShape_alloc BS s n
      obtain ⟨pre2, h2⟩ := ih (zz_alloc BS s n).1
      exact ⟨pre2 ++ pre1, by simp [runOps, h2, h1]⟩
    | store bid off v =>
      obtain ⟨pre, hp⟩ := ih (storeByte s bid off v)
      exact ⟨pre, by simp [runOps, hp, overflowShape_store]⟩

theorem AllocWF_init (BS : Nat) : AllocWF BS allocInit := by
  refine ⟨by simp [allocInit], ?_, ?_⟩
  · intro b hb
    rw [show allocInit.blobs = [] from rfl] at hb
    cases hb
  · intro i hi b hb
    rw [show allocInit.chains = List.replicate 9 [] from rfl,
      List.getD_eq_getElem?_getD, List.getElem?_replicate] at hb
    split at hb <;> simp at hb

theorem blobZeroInv_storeB {b : Blob} (h : blobZeroInv b) (bid off v : Nat) :
    blobZeroInv (if b.id = bid ∧ off < b.used then { b with data := b.data.set off v } else b) := by
  split_ifs with hb
  · obtain ⟨h1, h2, h3⟩ := h
    refine ⟨by simp [h1], h2, ?_⟩
    intro j hj1 hj2
    have hj3 : b.used ≤ j := hj1
    have hj4 : j < b.cap := hj2
    simp only
    rw [List.getD_eq_getElem?_getD, List.getElem?_set_ne (by omega),
      ← List.getD_eq_getElem?_getD]
    exact h3 j hj3 hj4
  · exact h

theorem AllocWF_store (BS : Nat) {s : AllocSt} (h : AllocWF BS s) (bid off v : Nat) :
    AllocWF BS (storeByte s bid off v) := by
  obtain ⟨hlen, hzero, hcap⟩ := h
  refine ⟨by simp [storeByte, hlen], ?_, ?_⟩
  · intro b hb
    unfold storeByte AllocSt.blobs at hb
    simp only at hb
    rw [List.mem_flatten] at hb
    obtain ⟨chm, hchm, hbch⟩ := hb
    rw [List.mem_map] at hchm
    obtain ⟨ch, hch, rfl⟩ := hchm
    rw [List.mem_map] at hbch
    obtain ⟨b0, hb0, rfl⟩ := hbch
    exact blobZeroInv_storeB (hzero b0 (List.mem_flatten.2 ⟨ch, hch, hb0⟩)) bid off v
  · intro i hi b hb
    unfold storeByte at hb
    simp only at hb
    rw [List.getD_eq_getElem?_getD, List.getElem?_map] at hb
    cases hq : s.chains[i]? with
    | none => rw [hq] at hb; simp at hb
    | some ch =>
      rw [hq] at hb
      simp only [Option.map_some', Option.getD_some] at hb
      rw [List.mem_map] at hb
      obtain ⟨b0, hb0, rfl⟩ := hb
      have hc := hcap i hi b0 (by rw [List.getD_eq_getElem?_getD, hq]; exact hb0)
      split_ifs <;> simpa using hc

theorem zz_alloc_in_blobs_WF (BS cnt c : Nat) (ch : List Blob) (hc : c ≤ BS)
    (hz : ∀ b ∈ ch, blobZeroInv b) (hcaps : ∀ b ∈ ch, b.cap = BS) :
    (∀ b ∈ (zz_alloc_in_blobs BS cnt ch c).1, blobZeroInv b) ∧
    (∀ b ∈ (zz_alloc_in_blobs BS cnt ch c).1, b.cap = BS) ∧
    (∃ b rest, (zz_alloc_in_blobs BS cnt ch c).1 = b :: rest ∧
      b.id = (zz_alloc_in_blobs BS cnt ch c).2.2.1 ∧
      b.used = (zz_alloc_in_blobs BS cnt ch c).2.2.2 + c ∧ b.used ≤ b.cap ∧
      ∀ j, j < c → b.data.getD ((zz_alloc_in_blobs BS cnt ch c).2.2.2 + j) 1 = 0) := by
  have hfreshinv : blobZeroInv (⟨cnt, BS, c, List.replicate BS 0⟩ : Blob) := by
    refine ⟨by simp, hc, ?_⟩
    intro j hj1 hj2
    simp only at hj2 ⊢
    rw [List.getD_eq_getElem?_getD, List.getElem?_replicate, if_pos hj2]
    rfl
  have hfreshzero : ∀ j, j < c →
      (List.replicate BS 0).getD (0 + j) 1 = 0 := by
    intro j hj
    rw [List.getD_eq_getElem?_getD, List.getElem?_replicate, if_pos (by omega)]
    rfl
  cases ch with
  | nil =>
    rw [zz_alloc_in_blobs_fresh BS cnt c [] (Or.inl rfl)]
    refine ⟨?_, ?_, ⟨⟨cnt, BS, c, List.replicate BS 0⟩, [], rfl, rfl, by simp, hc, hfreshzero⟩⟩
    · intro b hb
      rcases List.mem_cons.1 hb with rfl | hb
      · exact hfreshinv
      · cases hb
    · intro b hb
      rcases List.mem_cons.1 hb with rfl | hb
      · rfl
      · cases hb
  | cons hd tl =>
    by_cases hcap2 : hd.used + c ≤ BS
    · rw [zz_alloc_in_blobs_bump BS cnt c hd tl hcap2]
      obtain ⟨hd1, hd2, hd3⟩ := hz hd (by simp)
      have hdc : hd.cap = BS := hcaps hd (by simp)
      refine ⟨?_, ?_, ⟨{ hd with used := hd.used + c }, tl, rfl, rfl, rfl, by simp; omega, ?_⟩⟩
      · intro b hb
        rcases List.mem_cons.1 hb with rfl | hb
        · exact ⟨by simpa using hd1, by simp; omega, fun j hj1 hj2 => by
            simp only at hj1 hj2
            exact hd3 j (by omega) (by simpa using hj2)⟩
        · exact hz b (by simp [hb])
      · intro b hb
        rcases List.mem_cons.1 hb with rfl | hb
        · simpa using hdc
        · exact hcaps b (by simp [hb])
      · intro j hj
        simp only
        exact hd3 (hd.used + j) (by omega) (by omega)
    · rw [zz_alloc_in_blobs_fresh BS cnt c (hd :: tl) (Or.inr ⟨hd, rfl, by omega⟩)]
      refine ⟨?_, ?_, ⟨⟨cnt, BS, c, List.replicate BS 0⟩, hd :: tl, rfl, rfl, by simp, hc,
        hfreshzero⟩⟩
      · intro b hb
        rcases List.mem_cons.1 hb with rfl | hb
        · exact hfreshinv
        · exact hz b hb
      · intro b hb
        rcases List.mem_cons.1 hb with rfl | hb
        · rfl
        · exact hcaps b hb

theorem AllocWF_alloc (BS : Nat) (hBS : 1024 ≤ BS) {s : AllocSt} (h : AllocWF BS s)
    (n : Nat) : AllocWF BS (zz_alloc BS s n).1 := by
  obtain ⟨hlen, hzero, hcap⟩ := h
  by_cases hn : n ≤ 1024
  · obtain ⟨c, hcm, hnc, hmin2, hfind, hidx, heq⟩ := zz_alloc_small BS s n hn
    have hcBS : c ≤ BS := by simp [sizeClasses] at hcm; omega
    have hchz : ∀ b ∈ s.chains.getD (classIdx n) [], blobZeroInv b :=
      fun b hb => hzero b (mem_getD_flatten hb)
    have hchc : ∀ b ∈ s.chains.getD (classIdx n) [], b.cap = BS :=
      fun b hb => hcap _ hidx b hb
    obtain ⟨hz1, hz2, _⟩ := zz_alloc_in_blobs_WF BS s.counter c
      (s.chains.getD (classIdx n) []) hcBS hchz hchc
    rw [heq]
    unfold allocAt
    refine ⟨by simp [hlen], ?_, ?_⟩
    · intro b hb
      unfold AllocSt.blobs at hb
      simp only at hb
      rw [List.mem_flatten] at hb
      obtain ⟨chm, hchm, hbch⟩ := hb
      rcases List.mem_or_eq_of_mem_set hchm with hold | rfl
      · exact hzero b (List.mem_flatten.2 ⟨chm, hold, hbch⟩)
      · exact hz1 b hbch
    · intro i hi b hb
      simp only at hb
      by_cases hii : i = classIdx n
      · subst hii
        rw [List.getD_eq_getElem?_getD, List.getElem?_set_self (by omega),
          Option.getD_some] at hb
        exact hz2 b hb
      · rw [getD_set_of_ne _ _ _ (fun hx => hii hx.symm)] at hb
        exact hcap i hi b hb
  · rw [zz_alloc_overflow BS s n (by omega)]
    refine ⟨by simp [hlen], ?_, ?_⟩
    · intro b hb
      unfold AllocSt.blobs at hb
      simp only at hb
      rw [List.mem_flatten] at hb
      obtain ⟨chm, hchm, hbch⟩ := hb
      rcases List.mem_or_eq_of_mem_set hchm with hold | rfl
      · exact hzero b (List.mem_flatten.2 ⟨chm, hold, hbch⟩)
      · rcases List.mem_cons.1 hbch with rfl | hb2
        · exact ⟨by simp, by simp, fun j hj1 hj2 => by simp at hj1 hj2; omega⟩
        · exact hzero b (mem_getD_flatten hb2)
    · intro i hi b hb
      simp only at hb
      rw [getD_set_of_ne _ _ _ (by omega)] at hb
      exact hcap i hi b hb

theorem AllocWF_runOps (BS : Nat) (hBS : 1024 ≤ BS) (ops : List AOp) {s : AllocSt}
    (h : AllocWF BS s) : AllocWF BS (runOps BS s ops) := by
  induction ops generalizing s with
  | nil => exact h
  | cons op ops ih =>
    cases op with
    | alloc n => exact ih (AllocWF_alloc BS hBS h n)
    | store bid off v => exact ih (AllocWF_store BS h bid off v)

/-- C7: a request of at most 1024 bytes is served from the chain of the
smallest size class that fits it, bump-allocating from that chain's front
blob and prepending a fresh blob exactly when the front blob is absent or
cannot take the rounded request; a request above 1024 bytes gets a
dedicated blob of exactly that size, already fully used, pushed onto the
overflow chain, whose allocation records (identity, capacity, used offset)
are never touched by any later client interaction — in particular no later
allocation bumps an overflow blob. -/
theorem zz_alloc_size_classes (BS : Nat) (s : AllocSt) (n : Nat) (ops : List AOp) :
    (n ≤ 1024 →
      ∃ c, c ∈ sizeClasses ∧ n ≤ c ∧ (∀ c2 ∈ sizeClasses, n ≤ c2 → c ≤ c2) ∧
        minClass n = some c ∧ classIdx n < 8 ∧
        zz_alloc BS s n = allocAt BS s (classIdx n) c) ∧
    (∀ cnt (b : Blob) (rest : List Blob), b.used + n ≤ BS →
      zz_alloc_in_blobs BS cnt (b :: rest) n =
        ({ b with used := b.used + n } :: rest, cnt, (b.id, b.used))) ∧
    (∀ cnt (ch : List Blob),
      (ch.head? = none ∨ ∃ b, ch.head? = some b ∧ BS < b.used + n) →
      zz_alloc_in_blobs BS cnt ch n =
        (⟨cnt, BS, n, List.replicate BS 0⟩ :: ch, cnt + 1, (cnt, 0))) ∧
    (1024 < n →
      zz_alloc BS s n =
        (⟨s.counter + 1,
          s.chains.set 8 ((⟨s.counter, n, n, List.replicate n 0⟩ : Blob) ::
            s.chains.getD 8 [])⟩,
         (s.counter, 0))) ∧
    (∃ pre, overflowShape (runOps BS s ops) = pre ++ overflowShape s) :=
  ⟨zz_alloc_small BS s n,
   fun cnt b rest h => zz_alloc_in_blobs_bump BS cnt n b rest h,
   fun cnt ch h => zz_alloc_in_blobs_fresh BS cnt n ch h,
   zz_alloc_overflow BS s n,
   runOps_overflowShape BS ops s⟩

theorem zz_alloc_size_classes_witness :
    ((9 : Nat) ≤ 1024 ∧
      ∃ c, c ∈ sizeClasses ∧ 9 ≤ c ∧ (∀ c2 ∈ sizeClasses, 9 ≤ c2 → c ≤ c2) ∧
        minClass 9 = some c ∧ classIdx 9 < 8 ∧
        zz_alloc 1024 allocInit 9 = allocAt 1024 allocInit (classIdx 9) c) ∧
    ((⟨7, 1024, 100, List.replicate 1024 0⟩ : Blob).used + 9 ≤ 1024 ∧
      zz_alloc_in_blobs 1024 3 [⟨7, 1024, 100, List.replicate 1024 0⟩] 9 =
        ({ (⟨7, 1024, 100, List.replicate 1024 0⟩ : Blob) with used := 109 } :: [], 3, (7, 100))) ∧
    (((List.nil : List Blob).head? = none ∨
        ∃ b, (List.nil : List Blob).head? = some b ∧ 1024 < b.used + 9) ∧
      zz_alloc_in_blobs 1024 3 [] 9 =
        (⟨3, 1024, 9, List.replicate 1024 0⟩ :: [], 4, (3, 0))) ∧
    ((1024 : Nat) < 2000 ∧
      zz_alloc 1024 allocInit 2000 =
        (⟨allocInit.counter + 1,
          allocInit.chains.set 8 ((⟨allocInit.counter, 2000, 2000, List.replicate 2000 0⟩ : Blob) ::
            allocInit.chains.getD 8 [])⟩,
         (allocInit.counter, 0))) :=
  ⟨⟨by decide, (zz_alloc_size_classes 1024 allocInit 9 []).1 (by decide)⟩,
   ⟨by decide,
    (zz_alloc_size_classes 1024 allocInit 9 []).2.1 3 ⟨7, 1024, 100, List.replicate 1024 0⟩ []
      (by decide)⟩,
   ⟨Or.inl rfl,
    (zz_alloc_size_classes 1024 allocInit 9 []).2.2.1 3 [] (Or.inl rfl)⟩,
   ⟨by decide, (zz_alloc_size_classes 1024 allocInit 2000 []).2.2.2.1 (by decide)⟩⟩

/-- C8: in every allocator state reachable from initialization by
allocations and by stores into handed-out memory, every byte at or past a
blob's bump offset still holds zero; consequently the region a call to
`zz_alloc` hands out — which lies below the new bump offset of the front
blob of the served chain, offsets the allocator never handed out before —
is entirely zero at the moment of return. -/
theorem zz_alloc_returns_zeroed (BS : Nat) (hBS : 1024 ≤ BS) (ops : List AOp) (n : Nat) :
    (∀ b ∈ (runOps BS allocInit ops).blobs, blobZeroInv b) ∧
    (∃ i b rest,
      (zz_alloc BS (runOps BS allocInit ops) n).1.chains.getD i [] = b :: rest ∧
      b.id = (zz_alloc BS (runOps BS allocInit ops) n).2.1 ∧
      (zz_alloc BS (runOps BS allocInit ops) n).2.2 + n ≤ b.used ∧ b.used ≤ b.cap ∧
      ∀ j, j < n → b.data.getD ((zz_alloc BS (runOps BS allocInit ops) n).2.2 + j) 1 = 0) := by
  obtain ⟨hlen, hzero, hcap⟩ := AllocWF_runOps BS hBS ops (AllocWF_init BS)
  refine ⟨hzero, ?_⟩
  by_cases hn : n ≤ 1024
  · obtain ⟨c, hcm, hnc, hmin2, hfind, hidx, heq⟩ :=
      zz_alloc_small BS (runOps BS allocInit ops) n hn
    have hcBS : c ≤ BS := by simp [sizeClasses] at hcm; omega
    obtain ⟨_, _, b, rest, hb1, hb2, hb3, hb4, hb5⟩ :=
      zz_alloc_in_blobs_WF BS (runOps BS allocInit ops).counter c
        ((runOps BS allocInit ops).chains.getD (classIdx n) [])
        hcBS (fun b hb => hzero b (mem_getD_flatten hb)) (fun b hb => hcap _ hidx b hb)
    have hpe : (allocAt BS (runOps BS allocInit ops) (classIdx n) c).2 =
        (zz_alloc_in_blobs BS (runOps BS allocInit ops).counter
          ((runOps BS allocInit ops).chains.getD (classIdx n) []) c).2.2 := rfl
    refine ⟨classIdx n, b, rest, ?_, ?_, ?_, hb4, ?_⟩
    · rw [heq]
      unfold allocAt
      simp only
      rw [List.getD_eq_getElem?_getD, List.getElem?_set_self (by omega), Option.getD_some]
      exact hb1
    · rw [heq, hpe]; exact hb2
    · rw [heq, hpe]; omega
    · intro j hj
      rw [heq, hpe]
      exact hb5 j (by omega)
  · rw [zz_alloc_overflow BS (runOps BS allocInit ops) n (by omega)]
    refine ⟨8, ⟨(runOps BS allocInit ops).counter, n, n, List.replicate n 0⟩,
      (runOps BS allocInit ops).chains.getD 8 [], ?_, rfl, by simp, by simp, ?_⟩
    · simp only
      rw [List.getD_eq_getElem?_getD, List.getElem?_set_self (by omega), Option.getD_some]
    · intro j hj
      simp only
      rw [List.getD_eq_getElem?_getD, List.getElem?_replicate, if_pos (by omega)]
      rfl

theorem zz_alloc_returns_zeroed_witness :
    (1024 : Nat) ≤ 1024 ∧
    ((∀ b ∈ (runOps 1024 allocInit [AOp.alloc 4]).blobs, blobZeroInv b) ∧
    (∃ i b rest,
      (zz_alloc 1024 (runOps 1024 allocInit [AOp.alloc 4]) 5).1.chains.getD i [] = b :: rest ∧
      b.id = (zz_alloc 1024 (runOps 1024 allocInit [AOp.alloc 4]) 5).2.1 ∧
      (zz_alloc 1024 (runOps 1024 allocInit [AOp.alloc 4]) 5).2.2 + 5 ≤ b.used ∧
      b.used ≤ b.cap ∧
      ∀ j, j < 5 →
        b.data.getD ((zz_alloc 1024 (runOps 1024 allocInit [AOp.alloc 4]) 5).2.2 + j) 1 = 0)) :=
  ⟨by decide, zz_alloc_returns_zeroed 1024 (by decide) [AOp.alloc 4] 5⟩

/-! ## Node construction and copying -/

theorem id_mk {i : Nat} {tk : CStr} {ty : Nat} {d : ZZData} {cs : List ZNode} :
    (ZNode.mk i tk ty d cs).id = i := rfl

theorem token_mk {i : Nat} {tk : CStr} {ty : Nat} {d : ZZData} {cs : List ZNode} :
    (ZNode.mk i tk ty d cs).token = tk := rfl

theorem ty_mk {i : Nat} {tk : CStr} {ty : Nat} {d : ZZData} {cs : List ZNode} :
    (ZNode.mk i tk ty d cs).ty = ty := rfl

theorem data_mk {i : Nat} {tk : CStr} {ty : Nat} {d : ZZData} {cs : List ZNode} :
    (ZNode.mk i tk ty d cs).data = d := rfl

theorem children_mk {i : Nat} {tk : CStr} {ty : Nat} {d : ZZData} {cs : List ZNode} :
    (ZNode.mk i tk ty d cs).children = cs := rfl

theorem insert_rv_of_mem {t : Dict} {s : CStr} {a : Nat} (cnt : Nat)
    (hs : t.Sorted) (hm : (s, a) ∈ t.entries) :
    (zz_dict_insert cnt t s).2.2 = a := by
  have hk : s ∈ t.keys := List.mem_map_of_mem Prod.fst hm
  have h1 := (insert_ret cnt s t hs).1 hk
  exact assoc_fst_unique (pairwise_entries_of_sorted hs) h1.2 hm

theorem payloadOf_reindex (i i2 : Nat) (tk tk2 : CStr) (ty : Nat) (d : ZZData)
    (cs cs2 : List ZNode) :
    payloadOf (.mk i tk ty d cs) = payloadOf (.mk i2 tk2 ty d cs2) := rfl

/-- What one `zz_copy` call does: it hands back a freshly allocated node
(children empty, sibling self-anchored) with the same token, tag and
selected payload, advances the arena by exactly one node, and leaves the
dictionary's entry list untouched. -/
theorem zz_copy_spec (t : ZZTreeSt) (n : ZNode) (h1 : t.strings.Sorted)
    (h2 : n.ty ≤ 5)
    (h3 : n.ty = ZZ_STRING → (n.data.str_val.2, n.data.str_val.1) ∈ t.strings.entries) :
    ∃ m, (zz_copy t n).2 = some m ∧ m.id = t.counter ∧ m.token = n.token ∧
      m.ty = n.ty ∧ payloadOf m = payloadOf n ∧ m.children = [] ∧
      (zz_copy t n).1.counter = t.counter + 1 ∧
      (zz_copy t n).1.strings.entries = t.strings.entries ∧
      (zz_copy t n).1.strings.Sorted := by
  by_cases hty0 : n.ty = ZZ_NULL
  · refine ⟨.mk t.counter n.token ZZ_NULL {} [], ?_, rfl, rfl, hty0.symm, ?_, rfl, ?_, ?_, ?_⟩
    · simp [zz_copy, hty0, zz_null, zz_alloc_node]
    · simp [payloadOf, hty0, ty_mk, ZZ_NULL, ZZ_INT, ZZ_UINT, ZZ_DOUBLE, ZZ_STRING, ZZ_POINTER]
    · simp [zz_copy, hty0, zz_null, zz_alloc_node]
    · simp [zz_copy, hty0, zz_null, zz_alloc_node]
    · simpa [zz_copy, hty0, zz_null, zz_alloc_node] using h1
  by_cases hty1 : n.ty = ZZ_INT
  · refine ⟨.mk t.counter n.token ZZ_INT { int_val := n.data.int_val } [], ?_, rfl, rfl,
      hty1.symm, ?_, rfl, ?_, ?_, ?_⟩
    · simp [zz_copy, hty1, ZZ_NULL, ZZ_INT, zz_int, zz_alloc_node]
    · simp [payloadOf, hty1, ty_mk, data_mk, ZZ_NULL, ZZ_INT, ZZ_UINT, ZZ_DOUBLE, ZZ_STRING,
        ZZ_POINTER]
    · simp [zz_copy, hty1, ZZ_NULL, ZZ_INT, zz_int, zz_alloc_node]
    · simp [zz_copy, hty1, ZZ_NULL, ZZ_INT, zz_int, zz_alloc_node]
    · simpa [zz_copy, hty1, ZZ_NULL, ZZ_INT, zz_int, zz_alloc_node] using h1
  by_cases hty2 : n.ty = ZZ_UINT
  · refine ⟨.mk t.counter n.token ZZ_UINT { uint_val := n.data.uint_val } [], ?_, rfl, rfl,
      hty2.symm, ?_, rfl, ?_, ?_, ?_⟩
    · simp [zz_copy, hty2, ZZ_NULL, ZZ_INT, ZZ_UINT, zz_uint, zz_alloc_node]
    · simp [payloadOf, hty2, ty_mk, data_mk, ZZ_NULL, ZZ_INT, ZZ_UINT, ZZ_DOUBLE, ZZ_STRING,
        ZZ_POINTER]
    · simp [zz_copy, hty2, ZZ_NULL, ZZ_INT, ZZ_UINT, zz_uint, zz_alloc_node]
    · simp [zz_copy, hty2, ZZ_NULL, ZZ_INT, ZZ_UINT, zz_uint, zz_alloc_node]
    · simpa [zz_copy, hty2, ZZ_NULL, ZZ_INT, ZZ_UINT, zz_uint, zz_alloc_node] using h1
  by_cases hty3 : n.ty = ZZ_DOUBLE
  · refine ⟨.mk t.counter n.token ZZ_DOUBLE { double_val := n.data.double_val } [], ?_, rfl, rfl,
      hty3.symm, ?_, rfl, ?_, ?_, ?_⟩
    · simp [zz_copy, hty3, ZZ_NULL, ZZ_INT, ZZ_UINT, ZZ_DOUBLE, zz_double, zz_alloc_node]
    · simp [payloadOf, hty3, ty_mk, data_mk, ZZ_NULL, ZZ_INT, ZZ_UINT, ZZ_DOUBLE, ZZ_STRING,
        ZZ_POINTER]
    · simp [zz_copy, hty3, ZZ_NULL, ZZ_INT, ZZ_UINT, ZZ_DOUBLE, zz_double, zz_alloc_node]
    · simp [zz_copy, hty3, ZZ_NULL, ZZ_INT, ZZ_UINT, ZZ_DOUBLE, zz_double, zz_alloc_node]
    · simpa [zz_copy, hty3, ZZ_NULL, ZZ_INT, ZZ_UINT, ZZ_DOUBLE, zz_double, zz_alloc_node]
        using h1
  by_cases hty4 : n.ty = ZZ_STRING
  · have hmem := h3 hty4
    have hkey : n.data.str_val.2 ∈ t.strings.keys := List.mem_map_of_mem Prod.fst hmem
    have hrv := insert_rv_of_mem (t.counter + 1) h1 hmem
    have hcnt := ((insert_ret (t.counter + 1) n.data.str_val.2 t.strings h1).1 hkey).1
    have hent : (zz_dict_insert (t.counter + 1) t.strings n.data.str_val.2).1.entries
        = t.strings.entries := by
      rw [insert_entries _ _ _ h1, einsert_eq_self (pairwise_entries_of_sorted h1) hkey]
    have hsort : (zz_dict_insert (t.counter + 1) t.strings n.data.str_val.2).1.Sorted := by
      unfold Dict.Sorted Dict.keys
      rw [hent]
      exact h1
    refine ⟨.mk t.counter n.token ZZ_STRING { str_val := n.data.str_val } [], ?_, rfl, rfl,
      hty4.symm, ?_, rfl, ?_, ?_, ?_⟩
    · simp [zz_copy, hty4, ZZ_NULL, ZZ_INT, ZZ_UINT, ZZ_DOUBLE, ZZ_STRING, zz_string,
        zz_alloc_node, zz_alloc_string, hrv]
    · simp [payloadOf, hty4, ty_mk, data_mk, ZZ_NULL, ZZ_INT, ZZ_UINT, ZZ_DOUBLE, ZZ_STRING,
        ZZ_POINTER]
    · simp [zz_copy, hty4, ZZ_NULL, ZZ_INT, ZZ_UINT, ZZ_DOUBLE, ZZ_STRING, zz_string,
        zz_alloc_node, zz_alloc_string, hcnt]
    · simpa [zz_copy, hty4, ZZ_NULL, ZZ_INT, ZZ_UINT, ZZ_DOUBLE, ZZ_STRING, zz_string,
        zz_alloc_node, zz_alloc_string] using hent
    · simpa [zz_copy, hty4, ZZ_NULL, ZZ_INT, ZZ_UINT, ZZ_DOUBLE, ZZ_STRING, zz_string,
        zz_alloc_node, zz_alloc_string] using hsort
  by_cases hty5 : n.ty = ZZ_POINTER
  · refine ⟨.mk t.counter n.token ZZ_POINTER { ptr_val := n.data.ptr_val } [], ?_, rfl, rfl,
      hty5.symm, ?_, rfl, ?_, ?_, ?_⟩
    · simp [zz_copy, hty5, ZZ_NULL, ZZ_INT, ZZ_UINT, ZZ_DOUBLE, ZZ_STRING, ZZ_POINTER,
        zz_pointer, zz_alloc_node]
    · simp [payloadOf, hty5, ty_mk, data_mk, ZZ_NULL, ZZ_INT, ZZ_UINT, ZZ_DOUBLE, ZZ_STRING,
        ZZ_POINTER]
    · simp [zz_copy, hty5, ZZ_NULL, ZZ_INT, ZZ_UINT, ZZ_DOUBLE, ZZ_STRING, ZZ_POINTER,
        zz_pointer, zz_alloc_node]
    · simp [zz_copy, hty5, ZZ_NULL, ZZ_INT, ZZ_UINT, ZZ_DOUBLE, ZZ_STRING, ZZ_POINTER,
        zz_pointer, zz_alloc_node]
    · simpa [zz_copy, hty5, ZZ_NULL, ZZ_INT, ZZ_UINT, ZZ_DOUBLE, ZZ_STRING, ZZ_POINTER,
        zz_pointer, zz_alloc_node] using h1
  · exfalso
    simp only [ZZ_NULL, ZZ_INT, ZZ_UINT, ZZ_DOUBLE, ZZ_STRING, ZZ_POINTER] at hty0 hty1 hty2 hty3 hty4 hty5
    omega

/-- C4: `zz_copy` of a node of any of the six documented kinds, with any
number of children, returns a new node (fresh arena address) with the same
token, kind and selected payload, an empty child list and a self-anchored
sibling slot (no structural links); the model is functional, so the
original value is untouched by construction.  For the string kind the
copied node holds the same arena reference as the original: the
constructor re-interns the pointed-at bytes and interning returns the
existing storage. -/
theorem zz_copy_shallow (t : ZZTreeSt) (n : ZNode) (h1 : t.strings.Sorted) (h2 : n.ty ≤ 5)
    (h3 : n.ty = ZZ_STRING → (n.data.str_val.2, n.data.str_val.1) ∈ t.strings.entries) :
    ∃ m, (zz_copy t n).2 = some m ∧ m.id = t.counter ∧ m.token = n.token ∧
      m.ty = n.ty ∧ payloadOf m = payloadOf n ∧ m.children = [] ∧
      (n.ty = ZZ_STRING → m.data.str_val = n.data.str_val) := by
  obtain ⟨m, hsome, hid, htok, hty, hpay, hch, _, _, _⟩ := zz_copy_spec t n h1 h2 h3
  refine ⟨m, hsome, hid, htok, hty, hpay, hch, ?_⟩
  intro hstr
  have hm : m.ty = ZZ_STRING := hty.trans hstr
  simp only [payloadOf, hm, hstr, ZZ_NULL, ZZ_INT, ZZ_UINT, ZZ_DOUBLE, ZZ_STRING,
    ZZ_POINTER] at hpay
  simpa using hpay

theorem zz_copy_shallow_witness :
    ((zz_string zz_tree_init [1] [7]).2.ty ≤ 5 ∧
      ((zz_string zz_tree_init [1] [7]).2.ty = ZZ_STRING →
        ((zz_string zz_tree_init [1] [7]).2.data.str_val.2,
         (zz_string zz_tree_init [1] [7]).2.data.str_val.1) ∈
          (zz_string zz_tree_init [1] [7]).1.strings.entries)) ∧
    (∃ m, (zz_copy (zz_string zz_tree_init [1] [7]).1 (zz_string zz_tree_init [1] [7]).2).2 =
        some m ∧
      m.id = (zz_string zz_tree_init [1] [7]).1.counter ∧
      m.token = (zz_string zz_tree_init [1] [7]).2.token ∧
      m.ty = (zz_string zz_tree_init [1] [7]).2.ty ∧
      payloadOf m = payloadOf (zz_string zz_tree_init [1] [7]).2 ∧
      m.children = [] ∧
      ((zz_string zz_tree_init [1] [7]).2.ty = ZZ_STRING →
        m.data.str_val = (zz_string zz_tree_init [1] [7]).2.data.str_val)) :=
  ⟨⟨by decide, fun _ => by decide⟩,
   zz_copy_shallow (zz_string zz_tree_init [1] [7]).1 (zz_string zz_tree_init [1] [7]).2
     (by decide) (by decide) (fun _ => by decide)⟩

theorem zz_copy_some (t : ZZTreeSt) (n : ZNode) (h2 : n.ty ≤ 5) :
    ∃ m, (zz_copy t n).2 = some m := by
  by_cases hty0 : n.ty = ZZ_NULL
  · exact ⟨_, by simp [zz_copy, hty0, zz_null, zz_alloc_node]; rfl⟩
  by_cases hty1 : n.ty = ZZ_INT
  · exact ⟨_, by simp [zz_copy, hty1, ZZ_NULL, ZZ_INT, zz_int, zz_alloc_node]; rfl⟩
  by_cases hty2 : n.ty = ZZ_UINT
  · exact ⟨_, by simp [zz_copy, hty2, ZZ_NULL, ZZ_INT, ZZ_UINT, zz_uint, zz_alloc_node]; rfl⟩
  by_cases hty3 : n.ty = ZZ_DOUBLE
  · exact ⟨_, by simp [zz_copy, hty3, ZZ_NULL, ZZ_INT, ZZ_UINT, ZZ_DOUBLE, zz_double,
      zz_alloc_node]; rfl⟩
  by_cases hty4 : n.ty = ZZ_STRING
  · exact ⟨_, by simp [zz_copy, hty4, ZZ_NULL, ZZ_INT, ZZ_UINT, ZZ_DOUBLE, ZZ_STRING,
      zz_string, zz_alloc_node, zz_alloc_string]; rfl⟩
  by_cases hty5 : n.ty = ZZ_POINTER
  · exact ⟨_, by simp [zz_copy, hty5, ZZ_NULL, ZZ_INT, ZZ_UINT, ZZ_DOUBLE, ZZ_STRING,
      ZZ_POINTER, zz_pointer, zz_alloc_node]; rfl⟩
  · exfalso
    simp only [ZZ_NULL, ZZ_INT, ZZ_UINT, ZZ_DOUBLE, ZZ_STRING, ZZ_POINTER] at hty0 hty1 hty2 hty3 hty4 hty5
    omega

/-- C10: a type tag outside the six documented kinds makes `zz_copy` fall
through its switch and return the absent result with the arena untouched,
and `zz_copy_recursive` then also returns the absent result without
visiting or copying any children; every tag among the six kinds makes both
return a node. -/
theorem zz_copy_unknown_tag (t : ZZTreeSt) (n : ZNode) :
    (5 < n.ty → zz_copy t n = (t, none) ∧ zz_copy_recursive t n = (t, none)) ∧
    (n.ty ≤ 5 → (∃ m, (zz_copy t n).2 = some m) ∧
      ∃ m, (zz_copy_recursive t n).2 = some m) := by
  constructor
  · intro h
    have hcp : zz_copy t n = (t, none) := by
      simp only [zz_copy, ZZ_NULL, ZZ_INT, ZZ_UINT, ZZ_DOUBLE, ZZ_STRING, ZZ_POINTER]
      split_ifs with u1 u2 u3 u4 u5 u6 <;> first | omega | rfl
    refine ⟨hcp, ?_⟩
    rcases n with ⟨i, tk, ty, dt, cs⟩
    rw [zz_copy_recursive, hcp]
  · intro h
    obtain ⟨m, hm⟩ := zz_copy_some t n h
    refine ⟨⟨m, hm⟩, ?_⟩
    rcases n with ⟨i, tk, ty, dt, cs⟩
    rcases hq : zz_copy t (.mk i tk ty dt cs) with ⟨t1, o⟩
    rw [hq] at hm
    simp only at hm
    subst hm
    rw [zz_copy_recursive, hq]
    exact ⟨_, rfl⟩

theorem zz_copy_unknown_tag_witness :
    (5 < (ZNode.mk 0 [] 17 {} []).ty ∧
      zz_copy zz_tree_init (ZNode.mk 0 [] 17 {} []) = (zz_tree_init, none) ∧
      zz_copy_recursive zz_tree_init (ZNode.mk 0 [] 17 {} []) = (zz_tree_init, none)) ∧
    ((ZNode.mk 0 [] 2 {} []).ty ≤ 5 ∧
      ((∃ m, (zz_copy zz_tree_init (ZNode.mk 0 [] 2 {} [])).2 = some m) ∧
        ∃ m, (zz_copy_recursive zz_tree_init (ZNode.mk 0 [] 2 {} [])).2 = some m)) :=
  ⟨⟨by decide, (zz_copy_unknown_tag zz_tree_init (ZNode.mk 0 [] 17 {} [])).1 (by decide)⟩,
   ⟨by decide, (zz_copy_unknown_tag zz_tree_init (ZNode.mk 0 [] 2 {} [])).2 (by decide)⟩⟩

mutual
theorem copyRecSpec (t : ZZTreeSt) (n : ZNode) (h1 : t.strings.Sorted)
    (h2 : goodKinds n = true) (h3 : strRefsOk t.strings.entries n = true) :
    (∃ m, (zz_copy_recursive t n).2 = some m ∧ isoB n m = true ∧
      (∀ i ∈ m.ids, t.counter ≤ i)) ∧
    t.counter ≤ (zz_copy_recursive t n).1.counter ∧
    (zz_copy_recursive t n).1.strings.entries = t.strings.entries ∧
    (zz_copy_recursive t n).1.strings.Sorted := by
  rcases n with ⟨i, tk, ty, dt, cs⟩
  rw [goodKinds, Bool.and_eq_true, decide_eq_true_iff] at h2
  rw [strRefsOk, Bool.and_eq_true] at h3
  have hty : (ZNode.mk i tk ty dt cs).ty ≤ 5 := h2.1
  have hstr : (ZNode.mk i tk ty dt cs).ty = ZZ_STRING →
      ((ZNode.mk i tk ty dt cs).data.str_val.2,
        (ZNode.mk i tk ty dt cs).data.str_val.1) ∈ t.strings.entries := by
    intro hs
    have h4 := h3.1
    rw [ty_mk] at hs
    rw [if_pos hs, decide_eq_true_iff] at h4
    exact h4
  obtain ⟨m0, hm0, hid0, htok0, hty0, hpay0, hch0, hcnt0, hent0, hsort0⟩ :=
    zz_copy_spec t (.mk i tk ty dt cs) h1 hty hstr
  rcases hq : zz_copy t (.mk i tk ty dt cs) with ⟨t1, o⟩
  rw [hq] at hm0 hcnt0 hent0 hsort0
  simp only at hm0 hcnt0 hent0 hsort0
  subst hm0
  obtain ⟨hiso, hids, hcnt1, hent1, hsort1⟩ := copyChildrenSpec t1 cs hsort0 h2.2
    (by rw [hent0]; exact h3.2)
  have hrec : zz_copy_recursive t (.mk i tk ty dt cs) =
      ((copyChildren t1 cs).1,
        some (.mk m0.id m0.token m0.ty m0.data (m0.children ++ (copyChildren t1 cs).2))) := by
    rw [zz_copy_recursive, hq]
  rw [hrec]
  refine ⟨⟨_, rfl, ?_, ?_⟩, ?_, ?_, ?_⟩
  · rw [hch0]
    simp only [List.nil_append]
    rw [isoB, Bool.and_eq_true, Bool.and_eq_true, Bool.and_eq_true]
    refine ⟨⟨⟨?_, ?_⟩, ?_⟩, hiso⟩
    · rw [decide_eq_true_iff]
      exact htok0.symm
    · rw [decide_eq_true_iff]
      exact hty0.symm
    · rw [decide_eq_true_iff]
      exact hpay0.symm
  · intro j hj
    rw [ZNode.ids] at hj
    rcases List.mem_cons.1 hj with rfl | hj2
    · exact le_of_eq hid0.symm
    · rw [hch0] at hj2
      simp only [List.nil_append] at hj2
      have := hids j hj2
      omega
  · simp only
    omega
  · simp only
    rw [hent1, hent0]
  · exact hsort1

theorem copyChildrenSpec (t : ZZTreeSt) (cs : List ZNode) (h1 : t.strings.Sorted)
    (h2 : goodKindsList cs = true) (h3 : strRefsOkList t.strings.entries cs = true) :
    isoListB cs (copyChildren t cs).2 = true ∧
    (∀ i ∈ idsList (copyChildren t cs).2, t.counter ≤ i) ∧
    t.counter ≤ (copyChildren t cs).1.counter ∧
    (copyChildren t cs).1.strings.entries = t.strings.entries ∧
    (copyChildren t cs).1.strings.Sorted := by
  cases cs with
  | nil =>
    refine ⟨rfl, ?_, le_refl _, rfl, h1⟩
    intro j hj
    rw [show (copyChildren t []).2 = [] from rfl] at hj
    cases hj
  | cons c cs =>
    rw [goodKindsList, Bool.and_eq_true] at h2
    rw [strRefsOkList, Bool.and_eq_true] at h3
    obtain ⟨⟨m, hm, hiso, hmids⟩, hcnt, hent, hsort⟩ := copyRecSpec t c h1 h2.1 h3.1
    rcases hq : zz_copy_recursive t c with ⟨t1, o⟩
    rw [hq] at hm hcnt hent hsort
    simp only at hm hcnt hent hsort
    subst hm
    obtain ⟨hiso2, hids2, hcnt2, hent2, hsort2⟩ := copyChildrenSpec t1 cs hsort h2.2
      (by rw [hent]; exact h3.2)
    have heval : copyChildren t (c :: cs) =
        ((copyChildren t1 cs).1, m :: (copyChildren t1 cs).2) := by
      rw [copyChildren, hq]
    rw [heval]
    refine ⟨?_, ?_, by simp only; omega, by simp only; rw [hent2, hent], hsort2⟩
    · rw [isoListB, Bool.and_eq_true]
      exact ⟨hiso, hiso2⟩
    · intro j hj
      rw [idsList] at hj
      rcases List.mem_append.1 hj with hj2 | hj2
      · exact hmids j hj2
      · have := hids2 j hj2
        omega
end

/-- C5: recursive copy of a subtree whose nodes all carry documented kinds
and live string references returns the root of an isomorphic subtree —
same token, kind and payload at every corresponding node, children copied
in order — built entirely from fresh arena addresses, so the copy shares
no structural links with the original and detaching inside the copy cannot
affect the original. -/
theorem zz_copy_recursive_iso (t : ZZTreeSt) (n : ZNode)
    (h1 : t.strings.Sorted) (h2 : goodKinds n = true)
    (h3 : strRefsOk t.strings.entries n = true)
    (h4 : ∀ i ∈ n.ids, i < t.counter) :
    ∃ m, (zz_copy_recursive t n).2 = some m ∧ isoB n m = true ∧
      (∀ i ∈ m.ids, t.counter ≤ i) ∧ ∀ i ∈ m.ids, i ∉ n.ids := by
  obtain ⟨⟨m, hm, hiso, hids⟩, _, _, _⟩ := copyRecSpec t n h1 h2 h3
  exact ⟨m, hm, hiso, hids, fun i hi hin => absurd (h4 i hin) (not_lt.2 (hids i hi))⟩

theorem zz_copy_recursive_iso_witness :
    ((zz_string zz_tree_init [1] [7]).1.strings.Sorted ∧
      goodKinds (ZNode.mk 1 [2] 1 {} [(zz_string zz_tree_init [1] [7]).2]) = true ∧
      strRefsOk (zz_string zz_tree_init [1] [7]).1.strings.entries
        (ZNode.mk 1 [2] 1 {} [(zz_string zz_tree_init [1] [7]).2]) = true ∧
      (∀ i ∈ (ZNode.mk 1 [2] 1 {} [(zz_string zz_tree_init [1] [7]).2]).ids,
        i < (zz_string zz_tree_init [1] [7]).1.counter)) ∧
    (∃ m,
      (zz_copy_recursive (zz_string zz_tree_init [1] [7]).1
        (ZNode.mk 1 [2] 1 {} [(zz_string zz_tree_init [1] [7]).2])).2 = some m ∧
      isoB (ZNode.mk 1 [2] 1 {} [(zz_string zz_tree_init [1] [7]).2]) m = true ∧
      (∀ i ∈ m.ids, (zz_string zz_tree_init [1] [7]).1.counter ≤ i) ∧
      ∀ i ∈ m.ids, i ∉ (ZNode.mk 1 [2] 1 {} [(zz_string zz_tree_init [1] [7]).2]).ids) :=
  ⟨⟨by decide, by decide, by decide, by decide⟩,
   zz_copy_recursive_iso (zz_string zz_tree_init [1] [7]).1
     (ZNode.mk 1 [2] 1 {} [(zz_string zz_tree_init [1] [7]).2])
     (by decide) (by decide) (by decide) (by decide)⟩

/-! ## Reference-counted detachment -/

theorem Weaker.rfl (nd : HNode) : Weaker nd nd := ⟨le_refl _, List.Sublist.refl _⟩

theorem Weaker.trans {a b c : HNode} (h1 : Weaker a b) (h2 : Weaker b c) : Weaker a c :=
  ⟨le_trans h1.1 h2.1, h1.2.trans h2.2⟩

theorem get_setNode_self {h : Heap} {i : Nat} {nd : HNode} (x : HNode)
    (hg : h.get i = some nd) : (h.setNode i x).get i = some x := by
  unfold Heap.get Heap.setNode at *
  simp only
  rw [List.get?_set_eq, hg]
  rfl

theorem get_setNode_ne {h : Heap} {i j : Nat} (x : HNode) (hne : i ≠ j) :
    (h.setNode i x).get j = h.get j := by
  unfold Heap.get Heap.setNode
  simp only
  rw [List.get?_set_ne _ _ hne]

theorem detach_weaker (h : Heap) (i : Nat) :
    ∀ p nd, h.get p = some nd → ∃ nd2, (detach h i).get p = some nd2 ∧ Weaker nd2 nd := by
  intro p nd hp
  unfold detach
  cases hgi : h.get i with
  | none => exact ⟨nd, hp, Weaker.rfl nd⟩
  | some ndi =>
    dsimp only
    cases hpar : ndi.parent with
    | none => exact ⟨nd, hp, Weaker.rfl nd⟩
    | some q =>
      dsimp only
      cases hgq : h.get q with
      | none =>
        dsimp only
        by_cases hpi : p = i
        · subst hpi
          rw [hp] at hgi
          cases hgi
          exact ⟨{ nd with parent := none }, get_setNode_self _ hp,
            le_refl _, List.Sublist.refl _⟩
        · exact ⟨nd, by rw [get_setNode_ne _ (fun hx => hpi hx.symm)]; exact hp, Weaker.rfl nd⟩
      | some ndq =>
        dsimp only
        by_cases hpi : p = i
        · subst hpi
          rw [hp] at hgi
          cases hgi
          by_cases hqp : q = p
          · subst hqp
            rw [hp] at hgq
            cases hgq
            exact ⟨{ nd with parent := none },
              get_setNode_self _ (get_setNode_self _ hp), le_refl _, List.Sublist.refl _⟩
          · refine ⟨{ nd with parent := none }, ?_, le_refl _, List.Sublist.refl _⟩
            exact get_setNode_self _ (by rw [get_setNode_ne _ hqp]; exact hp)
        · by_cases hqp : q = p
          · subst hqp
            rw [hp] at hgq
            cases hgq
            refine ⟨{ nd with children := nd.children.erase i }, ?_, le_refl _,
              List.erase_sublist i nd.children⟩
            rw [get_setNode_ne _ (fun hx => hpi hx.symm)]
            exact get_setNode_self _ hp
          · refine ⟨nd, ?_, Weaker.rfl nd⟩
            rw [get_setNode_ne _ (fun hx => hpi hx.symm), get_setNode_ne _ hqp]
            exact hp

theorem unref_weaker (fuel : Nat) :
    ∀ (h : Heap) (i p : Nat) (nd : HNode), h.get p = some nd →
      ∃ nd2, ((zz_unref fuel h i).1.get p = some nd2 ∧ Weaker nd2 nd) := by
  induction fuel with
  | zero =>
    intro h i p nd hp
    exact ⟨nd, hp, Weaker.rfl nd⟩
  | succ fuel ih =>
    have fold : ∀ (cs : List Nat) (a : Heap) (p : Nat) (nd : HNode), a.get p = some nd →
        ∃ nd2, (cs.foldl (fun a c => (zz_unref fuel a c).1) a).get p = some nd2 ∧
          Weaker nd2 nd := by
      intro cs
      induction cs with
      | nil => intro a p nd hp; exact ⟨nd, hp, Weaker.rfl nd⟩
      | cons c cs ihc =>
        intro a p nd hp
        obtain ⟨nd1, h1, w1⟩ := ih a c p nd hp
        obtain ⟨nd2, h2, w2⟩ := ihc (zz_unref fuel a c).1 p nd1 h1
        exact ⟨nd2, by simpa using h2, w2.trans w1⟩
    intro h i p nd hp
    rw [zz_unref]
    cases hgi : h.get i with
    | none => exact ⟨nd, hp, Weaker.rfl nd⟩
    | some ndi =>
      dsimp only
      by_cases hz : ndi.refcount = 0
      · rw [if_pos hz]
        exact ⟨nd, hp, Weaker.rfl nd⟩
      by_cases ho : ndi.refcount = 1
      · rw [if_neg hz, if_pos ho]
        simp only
        by_cases hpi : i = p
        · subst hpi
          rw [hp] at hgi
          cases hgi
          obtain ⟨nd1, h1, w1⟩ := detach_weaker (h.setNode i { nd with refcount := 0 }) i i
            { nd with refcount := 0 } (get_setNode_self _ hp)
          obtain ⟨nd2, h2, w2⟩ := fold nd.children _ i nd1 h1
          exact ⟨nd2, h2, (w2.trans w1).trans ⟨by simp, List.Sublist.refl _⟩⟩
        · obtain ⟨nd1, h1, w1⟩ := detach_weaker (h.setNode i { ndi with refcount := 0 }) i p
            nd (by rw [get_setNode_ne _ hpi]; exact hp)
          obtain ⟨nd2, h2, w2⟩ := fold ndi.children _ p nd1 h1
          exact ⟨nd2, h2, w2.trans w1⟩
      · rw [if_neg hz, if_neg ho]
        simp only
        by_cases hpi : i = p
        · subst hpi
          rw [hp] at hgi
          cases hgi
          exact ⟨{ nd with refcount := nd.refcount - 1 }, get_setNode_self _ hp,
            by simp, List.Sublist.refl _⟩
        · exact ⟨nd, by rw [get_setNode_ne _ hpi]; exact hp, Weaker.rfl nd⟩

theorem foldl_unref_weaker (fuel : Nat) (cs : List Nat) :
    ∀ (a : Heap) (p : Nat) (nd : HNode), a.get p = some nd →
      ∃ nd2, (cs.foldl (fun a c => (zz_unref fuel a c).1) a).get p = some nd2 ∧
        Weaker nd2 nd := by
  induction cs with
  | nil => intro a p nd hp; exact ⟨nd, hp, Weaker.rfl nd⟩
  | cons c cs ihc =>
    intro a p nd hp
    obtain ⟨nd1, h1, w1⟩ := unref_weaker fuel a c p nd hp
    obtain ⟨nd2, h2, w2⟩ := ihc (zz_unref fuel a c).1 p nd1 h1
    exact ⟨nd2, by simpa using h2, w2.trans w1⟩

/-- C6, modelled from the spec (the body of `zz_unref`, declared in
src/src/tree.h, is not under src/): `zz_unref` decrements the reference
count; while the count stays positive the call only decrements it — every
structural link in the heap is untouched — and returns the node itself;
when the count reaches zero the node is detached from its parent's child
list, every child is recursively unref'd, and the absent sentinel comes
back, with the node's count now zero and the node gone from its former
parent's child list; a further unref of such an absent node is a complete
no-op — the heap is returned unchanged, so there is no double detach and
no count underflow. -/
theorem zz_unref_spec (fuel : Nat) (h : Heap) (i : Nat) (nd : HNode)
    (hget : h.get i = some nd) :
    (2 ≤ nd.refcount →
      zz_unref (fuel + 1) h i =
        (⟨h.nodes.set i { nd with refcount := nd.refcount - 1 }⟩, some i)) ∧
    (nd.refcount = 1 →
      zz_unref (fuel + 1) h i =
        (nd.children.foldl (fun a c => (zz_unref fuel a c).1)
          (detach (h.setNode i { nd with refcount := 0 }) i), none) ∧
      (∃ nd2, (zz_unref (fuel + 1) h i).1.get i = some nd2 ∧ nd2.refcount = 0) ∧
      (∀ p pn, nd.parent = some p → p ≠ i → h.get p = some pn → pn.children.Nodup →
        ∀ pn2, (zz_unref (fuel + 1) h i).1.get p = some pn2 → i ∉ pn2.children)) ∧
    (nd.refcount = 0 → zz_unref (fuel + 1) h i = (h, none)) := by
  have heval : ∀ P : Heap × Option Nat → Prop,
      P (match h.get i with
        | none => (h, none)
        | some nd =>
          if nd.refcount = 0 then (h, none)
          else if nd.refcount = 1 then
            (nd.children.foldl (fun a c => (zz_unref fuel a c).1)
              (detach (h.setNode i { nd with refcount := 0 }) i), none)
          else (h.setNode i { nd with refcount := nd.refcount - 1 }, some i)) →
      P (zz_unref (fuel + 1) h i) := by
    intro P hP
    rw [zz_unref]
    exact hP
  refine ⟨?_, ?_, ?_⟩
  · intro h2
    apply heval (fun r => r = _)
    rw [hget]
    dsimp only
    rw [if_neg (by omega), if_neg (by omega)]
    rfl
  · intro h1
    have hstep : zz_unref (fuel + 1) h i =
        (nd.children.foldl (fun a c => (zz_unref fuel a c).1)
          (detach (h.setNode i { nd with refcount := 0 }) i), none) := by
      apply heval (fun r => r = _)
      rw [hget]
      dsimp only
      rw [if_neg (by omega), if_pos h1]
    refine ⟨hstep, ?_, ?_⟩
    · obtain ⟨nd1, hd1, w1⟩ := detach_weaker (h.setNode i { nd with refcount := 0 }) i i
        { nd with refcount := 0 } (get_setNode_self _ hget)
      obtain ⟨nd2, hd2, w2⟩ := foldl_unref_weaker fuel nd.children _ i nd1 hd1
      refine ⟨nd2, by rw [hstep]; exact hd2, ?_⟩
      have hw := (w2.trans w1).1
      simp only at hw
      omega
    · intro p pn hpp hpi hpn hnodup pn2 hpn2
      have hdet : detach (h.setNode i { nd with refcount := 0 }) i =
          ((h.setNode i { nd with refcount := 0 }).setNode p
            { pn with children := pn.children.erase i }).setNode i
              { nd with refcount := 0, parent := none } := by
        unfold detach
        rw [get_setNode_self _ hget]
        dsimp only
        rw [show ({ nd with refcount := 0 } : HNode).parent = nd.parent from rfl, hpp]
        dsimp only
        rw [get_setNode_ne _ (Ne.symm hpi), hpn]
      have hgetp : (detach (h.setNode i { nd with refcount := 0 }) i).get p =
          some { pn with children := pn.children.erase i } := by
        rw [hdet, get_setNode_ne _ (fun hx => hpi hx.symm)]
        exact get_setNode_self _ (by rw [get_setNode_ne _ (Ne.symm hpi)]; exact hpn)
      obtain ⟨pn3, hp3, w3⟩ := foldl_unref_weaker fuel nd.children _ p _ hgetp
      rw [hstep] at hpn2
      rw [hp3] at hpn2
      cases hpn2
      intro hmem
      have hsub := w3.2.subset hmem
      simp only at hsub
      rw [hnodup.mem_erase_iff] at hsub
      exact hsub.1 rfl
  · intro h0
    apply heval (fun r => r = _)
    rw [hget]
    dsimp only
    rw [if_pos h0]

theorem zz_unref_spec_witness :
    ((Heap.mk [⟨2, none, [1]⟩, ⟨1, some 0, []⟩]).get 0 = some ⟨2, none, [1]⟩ ∧
      2 ≤ (⟨2, none, [1]⟩ : HNode).refcount ∧
      zz_unref 4 (Heap.mk [⟨2, none, [1]⟩, ⟨1, some 0, []⟩]) 0 =
        (⟨(Heap.mk [⟨2, none, [1]⟩, ⟨1, some 0, []⟩]).nodes.set 0
            { (⟨2, none, [1]⟩ : HNode) with
              refcount := (⟨2, none, [1]⟩ : HNode).refcount - 1 }⟩,
         some 0)) ∧
    ((∃ nd2, (zz_unref 4 (Heap.mk [⟨2, none, [1]⟩, ⟨1, some 0, []⟩]) 1).1.get 1 = some nd2 ∧
        nd2.refcount = 0) ∧
      (1 : Nat) ∉ ((⟨2, none, []⟩ : HNode)).children) ∧
    zz_unref 4 (Heap.mk [⟨0, none, []⟩]) 0 = (Heap.mk [⟨0, none, []⟩], none) :=
  ⟨⟨by decide, by decide,
    (zz_unref_spec 3 (Heap.mk [⟨2, none, [1]⟩, ⟨1, some 0, []⟩]) 0 ⟨2, none, [1]⟩
      (by decide)).1 (by decide)⟩,
   ⟨((zz_unref_spec 3 (Heap.mk [⟨2, none, [1]⟩, ⟨1, some 0, []⟩]) 1 ⟨1, some 0, []⟩
      (by decide)).2.1 (by decide)).2.1,
    ((zz_unref_spec 3 (Heap.mk [⟨2, none, [1]⟩, ⟨1, some 0, []⟩]) 1 ⟨1, some 0, []⟩
      (by decide)).2.1 (by decide)).2.2 0 ⟨2, none, [1]⟩ (by decide) (by decide) (by decide)
      (by decide) ⟨2, none, []⟩ (by decide)⟩,
   (zz_unref_spec 3 (Heap.mk [⟨0, none, []⟩]) 0 ⟨0, none, []⟩ (by decide)).2.2 (by decide)⟩

/-! ## The error reporter -/

/-- C9: with a file path whose file cannot be opened, `zz_error` writes
exactly the message/location text `file:line: msg` (the early return even
skips the newline) and nothing else — no source-line excerpt, no caret
underline; with no file path it writes exactly the placeholder line
`<file>:line: msg` followed by a newline, likewise without excerpt or
carets. -/
theorem zz_error_graceful (fs : String → Option (List Char)) (msg : String)
    (f : String) (fl fc ll lc : Nat) :
    (fs f = none →
      zz_error fs msg (some f) fl fc ll lc =
        f.toList ++ [':'] ++ natChars fl ++ ": ".toList ++ msg.toList) ∧
    zz_error fs msg none fl fc ll lc =
      "<file>:".toList ++ natChars fl ++ ": ".toList ++ msg.toList ++ ['\n'] := by
  constructor
  · intro h
    simp [zz_error, h]
  · rfl

theorem zz_error_graceful_witness :
    (fun _ : String => (none : Option (List Char))) "a.c" = none ∧
    zz_error (fun _ => none) "m" (some "a.c") 3 1 3 2 =
      "a.c".toList ++ [':'] ++ natChars 3 ++ ": ".toList ++ "m".toList :=
  ⟨rfl, (zz_error_graceful (fun _ => none) "m" "a.c" 3 1 3 2).1 rfl⟩

end Zebu
